import Mathlib

/-! # ip_calculator: interval algebra over the IPv4 address space

A shallow embedding of `src/calculations.cpp` (namespace `ip_calculator`):
range normalisation, range subtraction, decomposition of a range into CIDR
blocks and the orchestrating `processRanges`.

`uint32_t` values are natural numbers below `2^32`; every operation that can
wrap in C++ is written with an explicit reduction modulo `2^32`. The literal
`0xFFFFFFFF` of the source is written `4294967295`.
-/

namespace ip_calculator

/-! ## Machine arithmetic on `uint32_t` -/

/-- Addition of two `uint32_t`, wrapping modulo `2^32`. -/
def add32 (a b : Nat) : Nat := (a + b) % 4294967296

/-- Subtraction of two `uint32_t` (both below `2^32`), wrapping modulo `2^32`. -/
def sub32 (a b : Nat) : Nat := (a + 4294967296 - b) % 4294967296

/-- Left shift of a `uint32_t`, the bits shifted out are lost. -/
def shl32 (a k : Nat) : Nat := (a <<< k) % 4294967296

/-- Bitwise complement `~v` of a `uint32_t`. -/
def not32 (v : Nat) : Nat := v ^^^ 4294967295

/-- Count of trailing zero bits, looking at no more than `fuel` bits. -/
def ctzAux : Nat → Nat → Nat
  | 0, _ => 0
  | fuel + 1, n => if n % 2 = 1 then 0 else 1 + ctzAux fuel (n / 2)

/-- The compiler builtin `__builtin_ctz` on a 32-bit word. The builtin is
undefined at `0`; here it yields `32` there. -/
def builtin_ctz (n : Nat) : Nat := ctzAux 32 n

/-- Number of one-bits among the lowest `fuel` bits. -/
def popcountAux : Nat → Nat → Nat
  | 0, _ => 0
  | fuel + 1, n => n % 2 + popcountAux fuel (n / 2)

/-- The compiler builtin `__builtin_popcount` on a 32-bit word. -/
def builtin_popcount (n : Nat) : Nat := popcountAux 32 n

/-! ## Data model -/

/-- Public interface struct of `calculations.hpp`: an address and a subnet mask. -/
structure IPRange where
  ip : Nat
  mask : Nat
deriving DecidableEq, Repr

/-- Internal closed interval `[start, end]` of `calculations.cpp`. -/
structure UInt32Range where
  start : Nat
  «end» : Nat
deriving DecidableEq, Repr

/-- The comparison `UInt32Range::operator<`: only the starts are compared. -/
def UInt32Range.lt (a b : UInt32Range) : Prop := a.start < b.start

instance (a b : UInt32Range) : Decidable (UInt32Range.lt a b) := by
  unfold UInt32Range.lt; exact inferInstance

/-! ## convertToUInt32Ranges -/

/-- Each `{ip, mask}` becomes `[ip & mask, (ip & mask) | ~mask]`. -/
def convertToUInt32Ranges (ranges : List IPRange) : List UInt32Range :=
  ranges.map fun r =>
    let start := r.ip &&& r.mask
    let e := start ||| not32 r.mask
    { start := start, «end» := e }

/-! ## normalizeRanges -/

/-- What `std::sort` with `operator<` guarantees of its output: a permutation
of the input in which no later element is smaller than an earlier one. The
order among ranges of equal start is left open. -/
def IsSortOf (sorted input : List UInt32Range) : Prop :=
  sorted.Perm input ∧ sorted.Pairwise (fun a b => ¬ UInt32Range.lt b a)

/-- One admissible behaviour of `std::sort`: insertion sort by start. -/
def sortByStart (ranges : List UInt32Range) : List UInt32Range :=
  ranges.insertionSort (fun a b => a.start ≤ b.start)

/-- Another admissible behaviour of `std::sort`: ranges of equal start come
out in the opposite order to `sortByStart`. -/
def sortByStartRev (ranges : List UInt32Range) : List UInt32Range :=
  sortByStart ranges.reverse

/-- The merge loop of `normalizeRanges` (source lines 45-62). `back` is
`merged.back()`, the only element of `merged` the loop ever reads or writes;
the elements pushed before it are final and are emitted in order. -/
def mergeLoop (back : UInt32Range) : List UInt32Range → List UInt32Range
  | [] => [back]
  | r :: rest =>
    if r.start ≤ back.end ∨ (back.end ≠ 4294967295 ∧ r.start = add32 back.end 1) then
      if r.end > back.end then
        mergeLoop { back with «end» := r.end } rest
      else
        mergeLoop back rest
    else
      back :: mergeLoop r rest

/-- The function `normalizeRanges`, for a given behaviour `sort` of `std::sort`.
The in-place update of the argument is returned as the result. -/
def normalizeRangesWith (sort : List UInt32Range → List UInt32Range)
    (ranges : List UInt32Range) : List UInt32Range :=
  if ranges.isEmpty then ranges
  else
    match sort ranges with
    | [] => []
    | r0 :: rest => mergeLoop r0 rest

/-- The function `normalizeRanges` with insertion sort standing for `std::sort`. -/
def normalizeRanges (ranges : List UInt32Range) : List UInt32Range :=
  normalizeRangesWith sortByStart ranges

/-! ## subtractRanges -/

/-- The inner loop of `subtractRanges` (source lines 72-111) for one exclusion
`exc`, run over the part of `results` from index `i` on. The elements before
index `i` are never revisited, so they are emitted as they are left. -/
def subtractOne (exc : UInt32Range) : List UInt32Range → List UInt32Range
  | [] => []
  | res :: rest =>
    if exc.end < res.start ∨ exc.start > res.end then
      res :: subtractOne exc rest
    else if exc.start ≤ res.start ∧ exc.end ≥ res.end then
      subtractOne exc rest
    else if exc.start > res.start ∧ exc.end < res.end then
      { start := res.start, «end» := sub32 exc.start 1 } ::
        { start := add32 exc.end 1, «end» := res.end } :: subtractOne exc rest
    else if exc.start ≤ res.start then
      { res with start := add32 exc.end 1 } :: subtractOne exc rest
    else
      { res with «end» := sub32 exc.start 1 } :: subtractOne exc rest

/-- The function `subtractRanges`: every exclusion in turn is cut out of the
working list, which starts as `includes`. -/
def subtractRanges (includes excludes : List UInt32Range) : List UInt32Range :=
  excludes.foldl (fun results exc => subtractOne exc results) includes

/-! ## convertRangeToCidrs -/

/-- The inner `while (true)` loop of `convertRangeToCidrs` (source lines
129-142): doubles `size` while the next size keeps `current_ip` aligned and
passes the end test. `none` means the fuel ran out. -/
def growSize (range : UInt32Range) (current_ip : Nat) : Nat → Nat → Option Nat
  | 0, _ => none
  | fuel + 1, size =>
    if size > 4294967295 / 2 then some size
    else
      let next_size := shl32 size 1
      let next_mask := not32 (sub32 next_size 1)
      if (current_ip &&& next_mask) ≠ current_ip ∨
          current_ip > sub32 range.end (sub32 next_size 1) then
        some size
      else
        growSize range current_ip fuel next_size

/-- The mask computed from the block size (source lines 143-146). -/
def maskOfSize (size : Nat) : Nat :=
  let prefix_len := 32 - builtin_ctz size
  let mask :=
    if prefix_len = 32 then 4294967295
    else not32 (sub32 (shl32 1 (32 - prefix_len)) 1)
  if prefix_len = 0 then 0 else mask

/-- The outer loop of `convertRangeToCidrs` (source lines 127-159), started at
`current_ip`. `none` means the fuel ran out. -/
def convertLoop (range : UInt32Range) : Nat → Nat → Option (List IPRange)
  | fuel, current_ip =>
    if current_ip ≥ range.start ∧ current_ip ≤ range.end then
      match fuel with
      | 0 => none
      | fuel + 1 =>
        match growSize range current_ip 32 1 with
        | none => none
        | some size =>
          let block : IPRange := { ip := current_ip, mask := maskOfSize size }
          if current_ip = range.end then some [block]
          else if current_ip > sub32 4294967295 size then some [block]
          else (convertLoop range fuel (add32 current_ip size)).map (fun bs => block :: bs)
    else some []

/-- The function `convertRangeToCidrs`. The outer loop advances `current_ip` by
at least one address per round and stops once it passes `range.end`, so
`range.end + 1 - range.start` rounds are enough. -/
def convertRangeToCidrs (range : UInt32Range) : Option (List IPRange) :=
  convertLoop range (range.end + 1 - range.start) range.start

/-! ## Public functions -/

/-- The function `convertMaskToPrefixLength`: the population count of the mask. -/
def convertMaskToPrefixLength (mask : Nat) : Nat := builtin_popcount mask

/-- The loop that decomposes every final range and appends its blocks
(source lines 220-224). -/
def decomposeAll : List UInt32Range → Option (List IPRange)
  | [] => some []
  | range :: rest =>
    match convertRangeToCidrs range with
    | none => none
    | some cidrs => (decomposeAll rest).map (fun bs => cidrs ++ bs)

/-- The function `processRanges`, for a given behaviour `sort` of `std::sort`.
The `verbose` flag only writes to the error stream and is left out. -/
def processRangesWith (sort : List UInt32Range → List UInt32Range)
    (includes excludes : List IPRange) : Option (List IPRange) :=
  let include_ranges :=
    if includes.isEmpty then [{ start := 0, «end» := 4294967295 }]
    else normalizeRangesWith sort (convertToUInt32Ranges includes)
  let exclude_ranges := normalizeRangesWith sort (convertToUInt32Ranges excludes)
  let final_ranges := subtractRanges include_ranges exclude_ranges
  decomposeAll final_ranges

/-- The function `processRanges` with insertion sort standing for `std::sort`. -/
def processRanges (includes excludes : List IPRange) : Option (List IPRange) :=
  processRangesWith sortByStart includes excludes

/-! ## Specification vocabulary -/

/-- Address `x` lies in the closed interval `r`. -/
def InRange (r : UInt32Range) (x : Nat) : Prop := r.start ≤ x ∧ x ≤ r.end

instance (r : UInt32Range) (x : Nat) : Decidable (InRange r x) := by
  unfold InRange; exact inferInstance

/-- Address `x` lies in some range of the list. -/
def Covers (l : List UInt32Range) (x : Nat) : Prop := ∃ r ∈ l, InRange r x

/-- Address `x` lies inside the block `{ip, mask}`: it agrees with `ip` on the
mask bits. -/
def InBlock (b : IPRange) (x : Nat) : Prop := x &&& b.mask = b.ip &&& b.mask

instance (b : IPRange) (x : Nat) : Decidable (InBlock b x) := by
  unfold InBlock; exact inferInstance

/-- A range as the C++ type can hold it with the invariant `start <= end`. -/
def ValidRange (r : UInt32Range) : Prop := r.start ≤ r.end ∧ r.end ≤ 4294967295

/-- NormalizedSet of the specification: valid ranges, and for consecutive
ranges `r`, `r'` the first does not end at `0xFFFFFFFF` and `r'` starts beyond
`r.end + 1`. -/
def NormalizedSet (l : List UInt32Range) : Prop :=
  (∀ r ∈ l, ValidRange r) ∧
    l.Chain' (fun r r' => r.end < 4294967295 ∧ r.end + 1 < r'.start)

/-- Normal form with a lower bound: the ranges are valid, the first starts at
`lo` or later, and each next one starts at least two past the previous end. -/
def NormFrom (lo : Nat) : List UInt32Range → Prop
  | [] => True
  | r :: rs => lo ≤ r.start ∧ ValidRange r ∧ NormFrom (r.end + 2) rs

/-- A well-formed CIDR block: `mask` is `n` one-bits followed by `32 - n`
zero-bits, and `ip` is a multiple of the block size `2^(32-n)`. -/
def WellFormedBlock (b : IPRange) : Prop :=
  ∃ n, n ≤ 32 ∧ b.mask = 2 ^ 32 - 2 ^ (32 - n) ∧
    (∀ i, b.mask.testBit i = decide (32 - n ≤ i ∧ i < 32)) ∧
    convertMaskToPrefixLength b.mask = n ∧
    b.ip % 2 ^ (32 - n) = 0 ∧ b.ip &&& b.mask = b.ip

/-- Number of addresses in the block `{ip, mask}`: `~mask + 1`. -/
def blockSize (b : IPRange) : Nat := not32 b.mask + 1

/-- Two consecutive blocks that one larger valid CIDR block could replace: equal
size `s`, the first address a multiple of `2 * s`, the second address the first
plus `s`. -/
def Mergeable (b b' : IPRange) : Prop :=
  blockSize b = blockSize b' ∧ b.ip % (2 * blockSize b) = 0 ∧ b'.ip = b.ip + blockSize b

instance (b b' : IPRange) : Decidable (Mergeable b b') := by
  unfold Mergeable; exact inferInstance

/-- The address span `[ip & mask, (ip & mask) | ~mask]` of a block, as
`convertToUInt32Ranges` computes it. -/
def blockRange (b : IPRange) : UInt32Range :=
  { start := b.ip &&& b.mask, «end» := (b.ip &&& b.mask) ||| not32 b.mask }

/-- A prefix mask: the top `n` bits set, `0 <= n <= 32`. -/
def IsPrefixMask (m : Nat) : Prop := ∃ n, n ≤ 32 ∧ m = 2 ^ 32 - 2 ^ (32 - n)

instance (m : Nat) : Decidable (IsPrefixMask m) := by
  unfold IsPrefixMask; exact inferInstance

/-- An `IPRange` as the front end passes it: a 32-bit address with a prefix mask. -/
def ValidBlock (b : IPRange) : Prop := b.ip ≤ 4294967295 ∧ IsPrefixMask b.mask

instance (b : IPRange) : Decidable (ValidBlock b) := by
  unfold ValidBlock; exact inferInstance

/-! # Theorems -/

/-! ## Coverage and the normal form -/

theorem covers_nil (x : Nat) : Covers [] x ↔ False := by
  simp [Covers]

theorem covers_cons (r : UInt32Range) (l : List UInt32Range) (x : Nat) :
    Covers (r :: l) x ↔ InRange r x ∨ Covers l x := by
  simp [Covers]

theorem covers_perm {l₁ l₂ : List UInt32Range} (h : l₁.Perm l₂) (x : Nat) :
    Covers l₁ x ↔ Covers l₂ x := by
  unfold Covers
  constructor
  · rintro ⟨r, hr, hx⟩; exact ⟨r, h.mem_iff.mp hr, hx⟩
  · rintro ⟨r, hr, hx⟩; exact ⟨r, h.mem_iff.mpr hr, hx⟩

theorem normFrom_mono {lo lo' : Nat} (h : lo' ≤ lo) :
    ∀ {l : List UInt32Range}, NormFrom lo l → NormFrom lo' l
  | [], _ => trivial
  | _ :: _, ⟨h1, h2, h3⟩ => ⟨le_trans h h1, h2, h3⟩

theorem normFrom_valid {lo : Nat} {l : List UInt32Range} (h : NormFrom lo l) :
    ∀ r ∈ l, ValidRange r := by
  induction l generalizing lo with
  | nil => simp
  | cons a t ih =>
    obtain ⟨_, h2, h3⟩ := h
    intro r hr
    rcases List.mem_cons.mp hr with rfl | hr
    · exact h2
    · exact ih h3 r hr

theorem normFrom_start_ge {lo : Nat} {l : List UInt32Range} (h : NormFrom lo l) :
    ∀ r ∈ l, lo ≤ r.start := by
  induction l generalizing lo with
  | nil => simp
  | cons a t ih =>
    obtain ⟨h1, h2, h3⟩ := h
    intro r hr
    rcases List.mem_cons.mp hr with rfl | hr
    · exact h1
    · have := ih h3 r hr
      unfold ValidRange at h2
      omega

theorem normFrom_covers_ge {lo : Nat} {l : List UInt32Range} (h : NormFrom lo l)
    {x : Nat} (hx : Covers l x) : lo ≤ x := by
  obtain ⟨r, hr, hx1, _⟩ := hx
  exact le_trans (normFrom_start_ge h r hr) hx1

theorem normalizedSet_iff_normFrom (l : List UInt32Range) :
    NormalizedSet l ↔ NormFrom 0 l := by
  suffices h : ∀ lo, NormFrom lo l ↔
      ((∀ r ∈ l, ValidRange r) ∧
        l.Chain' (fun r r' => r.end < 4294967295 ∧ r.end + 1 < r'.start)) ∧
        ∀ r ∈ l.head?, lo ≤ r.start by
    rw [h 0]; unfold NormalizedSet; simp
  induction l with
  | nil => intro lo; simp [NormFrom]
  | cons a t ih =>
    intro lo
    simp only [NormFrom, ih, List.mem_cons, forall_eq_or_imp, List.head?_cons,
      Option.mem_def, Option.some.injEq, forall_eq', List.chain'_cons']
    constructor
    · rintro ⟨h1, h2, ⟨h3, h4⟩, h5⟩
      refine ⟨⟨⟨h2, h3⟩, ?_, h4⟩, h1⟩
      intro y hy
      have h6 := h5 y hy
      have h7 : ValidRange y := h3 y (List.mem_of_mem_head? hy)
      unfold ValidRange at h7
      omega
    · rintro ⟨⟨⟨h2, h3⟩, h5, h4⟩, h1⟩
      refine ⟨h1, h2, ⟨h3, h4⟩, ?_⟩
      intro y hy
      have := h5 y hy
      omega

/-- Two lists in normal form that cover the same addresses are the same list. -/
theorem normFrom_unique :
    ∀ (l₁ l₂ : List UInt32Range) (lo lo' : Nat), NormFrom lo l₁ → NormFrom lo' l₂ →
      (∀ x, Covers l₁ x ↔ Covers l₂ x) → l₁ = l₂ := by
  intro l₁
  induction l₁ with
  | nil =>
    intro l₂ lo lo' _ h2 hc
    cases l₂ with
    | nil => rfl
    | cons b t =>
      obtain ⟨_, hb, _⟩ := h2
      have : Covers (b :: t) b.start := (covers_cons _ _ _).mpr (Or.inl ⟨le_refl _, hb.1⟩)
      exact absurd ((hc _).mpr this) (by simp [covers_nil])
  | cons a s ih =>
    intro l₂ lo lo' h1 h2 hc
    cases l₂ with
    | nil =>
      obtain ⟨_, ha, _⟩ := h1
      have : Covers (a :: s) a.start := (covers_cons _ _ _).mpr (Or.inl ⟨le_refl _, ha.1⟩)
      exact absurd ((hc _).mp this) (by simp [covers_nil])
    | cons b t =>
      obtain ⟨_, ha, hs⟩ := h1
      obtain ⟨_, hb, ht⟩ := h2
      have key : ∀ x, (InRange a x ∨ Covers s x) ↔ (InRange b x ∨ Covers t x) := by
        intro x; rw [← covers_cons, ← covers_cons]; exact hc x
      have hsx : ∀ x, Covers s x → a.end + 2 ≤ x := fun x hx => normFrom_covers_ge hs hx
      have htx : ∀ x, Covers t x → b.end + 2 ≤ x := fun x hx => normFrom_covers_ge ht hx
      unfold ValidRange at ha hb
      have hstart : a.start = b.start := by
        have h1 := (key a.start).mp (Or.inl ⟨le_refl _, ha.1⟩)
        have h2 := (key b.start).mpr (Or.inl ⟨le_refl _, hb.1⟩)
        unfold InRange at h1 h2
        rcases h1 with h1 | h1 <;> rcases h2 with h2 | h2
        · omega
        · have := hsx _ h2; omega
        · have := htx _ h1; omega
        · have := hsx _ h2; have := htx _ h1; omega
      have hend : a.end = b.end := by
        rcases Nat.lt_trichotomy a.end b.end with h | h | h
        · have h1 := (key (a.end + 1)).mpr (Or.inl ⟨by omega, by omega⟩)
          unfold InRange at h1
          rcases h1 with h1 | h1
          · omega
          · have := hsx _ h1; omega
        · exact h
        · have h1 := (key (b.end + 1)).mp (Or.inl ⟨by omega, by omega⟩)
          unfold InRange at h1
          rcases h1 with h1 | h1
          · omega
          · have := htx _ h1; omega
      have hab : a = b := by
        cases a; cases b; simp_all
      subst hab
      have htail : s = t := by
        apply ih t _ _ hs ht
        intro x
        constructor
        · intro hx
          have h1 := (key x).mp (Or.inr hx)
          have := hsx x hx
          unfold InRange at h1
          rcases h1 with h1 | h1
          · omega
          · exact h1
        · intro hx
          have h1 := (key x).mpr (Or.inr hx)
          have := htx x hx
          unfold InRange at h1
          rcases h1 with h1 | h1
          · omega
          · exact h1
      rw [htail]

/-! ## normalizeRanges -/

theorem sortByStart_isSortOf (l : List UInt32Range) : IsSortOf (sortByStart l) l := by
  refine ⟨List.perm_insertionSort _ l, ?_⟩
  have h : (List.insertionSort (fun a b : UInt32Range => a.start ≤ b.start) l).Sorted
      (fun a b : UInt32Range => a.start ≤ b.start) :=
    @List.sorted_insertionSort UInt32Range (fun a b => a.start ≤ b.start) _
      ⟨fun a b => Nat.le_total a.start b.start⟩ ⟨fun _ _ _ h1 h2 => Nat.le_trans h1 h2⟩ l
  unfold sortByStart
  refine List.Pairwise.imp ?_ h
  intro a b hab
  unfold UInt32Range.lt
  omega

theorem sortByStartRev_isSortOf (l : List UInt32Range) : IsSortOf (sortByStartRev l) l := by
  obtain ⟨h1, h2⟩ := sortByStart_isSortOf l.reverse
  exact ⟨h1.trans (List.reverse_perm l), h2⟩

theorem mergeLoop_normFrom :
    ∀ (rest : List UInt32Range) (back : UInt32Range) (lo : Nat),
      ValidRange back → lo ≤ back.start →
      (∀ r ∈ rest, ValidRange r ∧ back.start ≤ r.start) →
      rest.Pairwise (fun a b => ¬ UInt32Range.lt b a) →
      NormFrom lo (mergeLoop back rest) := by
  intro rest
  induction rest with
  | nil =>
    intro back lo hb hlo _ _
    exact ⟨hlo, hb, trivial⟩
  | cons r rest ih =>
    intro back lo hb hlo hall hsorted
    have hr := hall r (List.mem_cons_self _ _)
    have hrest : ∀ q ∈ rest, ValidRange q ∧ back.start ≤ q.start :=
      fun q hq => hall q (List.mem_cons_of_mem _ hq)
    obtain ⟨hpair, hsorted'⟩ := List.pairwise_cons.mp hsorted
    unfold ValidRange at hb hr
    unfold mergeLoop
    split_ifs with hc he
    · exact ih ⟨back.start, r.end⟩ lo (by unfold ValidRange; dsimp only; omega) hlo hrest
        hsorted'
    · exact ih back lo hb hlo hrest hsorted'
    · refine ⟨hlo, hb, ?_⟩
      apply ih r _ hr.1 _ _ hsorted'
      · unfold add32 at hc; omega
      · intro q hq
        refine ⟨(hrest q hq).1, ?_⟩
        have := hpair q hq
        unfold UInt32Range.lt at this
        omega

theorem mergeLoop_covers (x : Nat) :
    ∀ (rest : List UInt32Range) (back : UInt32Range),
      ValidRange back →
      (∀ r ∈ rest, ValidRange r ∧ back.start ≤ r.start) →
      rest.Pairwise (fun a b => ¬ UInt32Range.lt b a) →
      (Covers (mergeLoop back rest) x ↔ InRange back x ∨ Covers rest x) := by
  intro rest
  induction rest with
  | nil =>
    intro back _ _ _
    simp [mergeLoop, covers_cons, covers_nil]
  | cons r rest ih =>
    intro back hb hall hsorted
    have hr := hall r (List.mem_cons_self _ _)
    have hrest : ∀ q ∈ rest, ValidRange q ∧ back.start ≤ q.start :=
      fun q hq => hall q (List.mem_cons_of_mem _ hq)
    obtain ⟨hpair, hsorted'⟩ := List.pairwise_cons.mp hsorted
    unfold ValidRange at hb hr
    unfold mergeLoop
    split_ifs with hc he
    · rw [ih ⟨back.start, r.end⟩ (by unfold ValidRange; dsimp only; omega) hrest hsorted',
        covers_cons]
      unfold add32 at hc
      unfold InRange
      dsimp only
      constructor
      · rintro (h | h)
        · omega
        · exact Or.inr (Or.inr h)
      · rintro (h | h | h)
        · omega
        · omega
        · exact Or.inr h
    · rw [ih back hb hrest hsorted', covers_cons]
      unfold InRange
      constructor
      · rintro (h | h)
        · exact Or.inl h
        · exact Or.inr (Or.inr h)
      · rintro (h | h | h)
        · exact Or.inl h
        · unfold add32 at hc; omega
        · exact Or.inr h
    · rw [covers_cons, ih r hr.1 _ hsorted', covers_cons]
      intro q hq
      refine ⟨(hrest q hq).1, ?_⟩
      have := hpair q hq
      unfold UInt32Range.lt at this
      omega

/-- What the merge loop is run on: the sorted list, split at its first element. -/
theorem normalizeRangesWith_cases (sort : List UInt32Range → List UInt32Range)
    (hsort : ∀ l, IsSortOf (sort l) l) (S : List UInt32Range)
    (hS : ∀ r ∈ S, ValidRange r) :
    (S = [] ∧ normalizeRangesWith sort S = []) ∨
    ∃ r0 rest, sort S = r0 :: rest ∧ normalizeRangesWith sort S = mergeLoop r0 rest ∧
      ValidRange r0 ∧ (∀ r ∈ rest, ValidRange r ∧ r0.start ≤ r.start) ∧
      rest.Pairwise (fun a b => ¬ UInt32Range.lt b a) := by
  obtain ⟨hperm, hsorted⟩ := hsort S
  cases hS0 : S with
  | nil => left; simp [normalizeRangesWith]
  | cons a t =>
    right
    cases hs : sort S with
    | nil =>
      rw [hs] at hperm
      have := hperm.length_eq
      rw [hS0] at this
      simp at this
    | cons r0 rest =>
      rw [hs] at hperm hsorted
      obtain ⟨hpair, hsorted'⟩ := List.pairwise_cons.mp hsorted
      have hval : ∀ r ∈ r0 :: rest, ValidRange r := fun r hr => hS r (hperm.mem_iff.mp hr)
      refine ⟨r0, rest, ?_, ?_, hval r0 (List.mem_cons_self _ _), ?_, hsorted'⟩
      · rw [← hS0, hs]
      · rw [← hS0]
        unfold normalizeRangesWith
        rw [hs, hS0]
        simp
      · intro r hr
        refine ⟨hval r (List.mem_cons_of_mem _ hr), ?_⟩
        have := hpair r hr
        unfold UInt32Range.lt at this
        omega

theorem normalizeRangesWith_normFrom (sort : List UInt32Range → List UInt32Range)
    (hsort : ∀ l, IsSortOf (sort l) l) (S : List UInt32Range)
    (hS : ∀ r ∈ S, ValidRange r) : NormFrom 0 (normalizeRangesWith sort S) := by
  rcases normalizeRangesWith_cases sort hsort S hS with ⟨_, h⟩ | ⟨r0, rest, _, h, h0, hr, hp⟩
  · rw [h]; trivial
  · rw [h]; exact mergeLoop_normFrom rest r0 0 h0 (Nat.zero_le _) hr hp

theorem normalizeRangesWith_covers (sort : List UInt32Range → List UInt32Range)
    (hsort : ∀ l, IsSortOf (sort l) l) (S : List UInt32Range)
    (hS : ∀ r ∈ S, ValidRange r) (x : Nat) :
    Covers (normalizeRangesWith sort S) x ↔ Covers S x := by
  rcases normalizeRangesWith_cases sort hsort S hS with ⟨h1, h⟩ | ⟨r0, rest, hs, h, h0, hr, hp⟩
  · rw [h, h1]
  · rw [h, mergeLoop_covers x rest r0 h0 hr hp, ← covers_cons, ← hs]
    exact covers_perm (hsort S).1 x

/-- C4: for every list `S` of valid ranges and every address `x`, `x` lies in
some range of `normalizeRanges(S)` exactly when it lies in some range of `S`,
whatever order `std::sort` gives to ranges of equal start. -/
theorem normalizeRanges_coverage (sort : List UInt32Range → List UInt32Range)
    (hsort : ∀ l, IsSortOf (sort l) l) (S : List UInt32Range)
    (hS : ∀ r ∈ S, r.start ≤ r.end ∧ r.end ≤ 4294967295) (x : Nat) :
    (∃ r ∈ normalizeRangesWith sort S, r.start ≤ x ∧ x ≤ r.end) ↔
      ∃ r ∈ S, r.start ≤ x ∧ x ≤ r.end :=
  normalizeRangesWith_covers sort hsort S hS x

theorem normalizeRanges_coverage_witness :
    (∀ r ∈ [(⟨5, 10⟩ : UInt32Range), ⟨1, 3⟩, ⟨4, 4⟩, ⟨20, 30⟩],
        r.start ≤ r.end ∧ r.end ≤ 4294967295) ∧
      ((∃ r ∈ normalizeRangesWith sortByStart [⟨5, 10⟩, ⟨1, 3⟩, ⟨4, 4⟩, ⟨20, 30⟩],
          r.start ≤ 7 ∧ 7 ≤ r.end) ↔
        ∃ r ∈ [(⟨5, 10⟩ : UInt32Range), ⟨1, 3⟩, ⟨4, 4⟩, ⟨20, 30⟩], r.start ≤ 7 ∧ 7 ≤ r.end) :=
  ⟨by decide, normalizeRanges_coverage sortByStart sortByStart_isSortOf
    [⟨5, 10⟩, ⟨1, 3⟩, ⟨4, 4⟩, ⟨20, 30⟩] (by decide) 7⟩

/-- C5: for every list `S` of valid ranges `normalizeRanges(S)` is a
NormalizedSet: every range has `start <= end`, and consecutive ranges `r`, `r'`
satisfy `r.end < 0xFFFFFFFF` and `r'.start > r.end + 1`; the empty list yields
the empty list. -/
theorem normalizeRanges_normalized (sort : List UInt32Range → List UInt32Range)
    (hsort : ∀ l, IsSortOf (sort l) l) (S : List UInt32Range)
    (hS : ∀ r ∈ S, r.start ≤ r.end ∧ r.end ≤ 4294967295) :
    ((∀ r ∈ normalizeRangesWith sort S, r.start ≤ r.end ∧ r.end ≤ 4294967295) ∧
      (normalizeRangesWith sort S).Chain'
        (fun r r' => r.end < 4294967295 ∧ r'.start > r.end + 1)) ∧
      normalizeRangesWith sort [] = [] :=
  ⟨(normalizedSet_iff_normFrom _).mpr (normalizeRangesWith_normFrom sort hsort S hS), rfl⟩

theorem normalizeRanges_normalized_witness :
    (∀ r ∈ [(⟨5, 10⟩ : UInt32Range), ⟨1, 3⟩, ⟨4, 4⟩, ⟨20, 30⟩],
        r.start ≤ r.end ∧ r.end ≤ 4294967295) ∧
      (((∀ r ∈ normalizeRangesWith sortByStart [⟨5, 10⟩, ⟨1, 3⟩, ⟨4, 4⟩, ⟨20, 30⟩],
          r.start ≤ r.end ∧ r.end ≤ 4294967295) ∧
        (normalizeRangesWith sortByStart [⟨5, 10⟩, ⟨1, 3⟩, ⟨4, 4⟩, ⟨20, 30⟩]).Chain'
          (fun r r' => r.end < 4294967295 ∧ r'.start > r.end + 1)) ∧
        normalizeRangesWith sortByStart [] = []) :=
  ⟨by decide, normalizeRanges_normalized sortByStart sortByStart_isSortOf
    [⟨5, 10⟩, ⟨1, 3⟩, ⟨4, 4⟩, ⟨20, 30⟩] (by decide)⟩

/-- C6: for every list `S` of valid ranges, normalising the normalised list
gives the same list again, and the result does not depend on how the sort
orders ranges of equal start: any two admissible sorts give the same list. -/
theorem normalizeRanges_idempotent (sort₁ sort₂ : List UInt32Range → List UInt32Range)
    (hsort₁ : ∀ l, IsSortOf (sort₁ l) l) (hsort₂ : ∀ l, IsSortOf (sort₂ l) l)
    (S : List UInt32Range) (hS : ∀ r ∈ S, r.start ≤ r.end ∧ r.end ≤ 4294967295) :
    normalizeRangesWith sort₁ (normalizeRangesWith sort₂ S) = normalizeRangesWith sort₂ S ∧
      normalizeRangesWith sort₁ S = normalizeRangesWith sort₂ S := by
  have h2 := normalizeRangesWith_normFrom sort₂ hsort₂ S hS
  have h1 := normalizeRangesWith_normFrom sort₁ hsort₁ S hS
  have hv := normFrom_valid h2
  constructor
  · exact normFrom_unique _ _ 0 0 (normalizeRangesWith_normFrom sort₁ hsort₁ _ hv) h2
      (fun x => normalizeRangesWith_covers sort₁ hsort₁ _ hv x)
  · exact normFrom_unique _ _ 0 0 h1 h2 (fun x => by
      rw [normalizeRangesWith_covers sort₁ hsort₁ S hS x,
        normalizeRangesWith_covers sort₂ hsort₂ S hS x])

theorem normalizeRanges_idempotent_witness :
    (∀ r ∈ [(⟨5, 10⟩ : UInt32Range), ⟨5, 7⟩, ⟨1, 3⟩, ⟨4, 4⟩, ⟨20, 30⟩],
        r.start ≤ r.end ∧ r.end ≤ 4294967295) ∧
      (normalizeRangesWith sortByStart
          (normalizeRangesWith sortByStartRev [⟨5, 10⟩, ⟨5, 7⟩, ⟨1, 3⟩, ⟨4, 4⟩, ⟨20, 30⟩]) =
          normalizeRangesWith sortByStartRev [⟨5, 10⟩, ⟨5, 7⟩, ⟨1, 3⟩, ⟨4, 4⟩, ⟨20, 30⟩] ∧
        normalizeRangesWith sortByStart [⟨5, 10⟩, ⟨5, 7⟩, ⟨1, 3⟩, ⟨4, 4⟩, ⟨20, 30⟩] =
          normalizeRangesWith sortByStartRev [⟨5, 10⟩, ⟨5, 7⟩, ⟨1, 3⟩, ⟨4, 4⟩, ⟨20, 30⟩]) :=
  ⟨by decide, normalizeRanges_idempotent sortByStart sortByStartRev sortByStart_isSortOf
    sortByStartRev_isSortOf [⟨5, 10⟩, ⟨5, 7⟩, ⟨1, 3⟩, ⟨4, 4⟩, ⟨20, 30⟩] (by decide)⟩

/-! ## subtractRanges -/

theorem subtractOne_covers (exc : UInt32Range) (hexc : ValidRange exc) (x : Nat) :
    ∀ (l : List UInt32Range), (∀ r ∈ l, ValidRange r) →
      (Covers (subtractOne exc l) x ↔ Covers l x ∧ ¬ InRange exc x) := by
  intro l
  induction l with
  | nil => intro _; simp [subtractOne, covers_nil]
  | cons res rest ih =>
    intro hall
    have hres := hall res (List.mem_cons_self _ _)
    have ih' := ih (fun q hq => hall q (List.mem_cons_of_mem _ hq))
    unfold ValidRange at hexc hres
    unfold subtractOne
    split_ifs with h1 h2 h3 h4
    · rw [covers_cons, covers_cons, ih']
      unfold InRange
      constructor
      · rintro (h | h)
        · exact ⟨Or.inl h, by omega⟩
        · exact ⟨Or.inr h.1, h.2⟩
      · rintro ⟨h | h, h'⟩
        · exact Or.inl h
        · exact Or.inr ⟨h, h'⟩
    · rw [covers_cons, ih']
      unfold InRange
      constructor
      · rintro ⟨h, h'⟩
        exact ⟨Or.inr h, h'⟩
      · rintro ⟨h | h, h'⟩
        · omega
        · exact ⟨h, h'⟩
    · rw [covers_cons, covers_cons, covers_cons, ih']
      unfold InRange sub32 add32
      dsimp only
      constructor
      · rintro (h | h | h)
        · exact ⟨Or.inl (by omega), by omega⟩
        · exact ⟨Or.inl (by omega), by omega⟩
        · exact ⟨Or.inr h.1, h.2⟩
      · rintro ⟨h | h, h'⟩
        · by_cases hx : x < exc.start
          · exact Or.inl (by omega)
          · exact Or.inr (Or.inl (by omega))
        · exact Or.inr (Or.inr ⟨h, h'⟩)
    · rw [covers_cons, covers_cons, ih']
      unfold InRange add32
      dsimp only
      constructor
      · rintro (h | h)
        · exact ⟨Or.inl (by omega), by omega⟩
        · exact ⟨Or.inr h.1, h.2⟩
      · rintro ⟨h | h, h'⟩
        · exact Or.inl (by omega)
        · exact Or.inr ⟨h, h'⟩
    · rw [covers_cons, covers_cons, ih']
      unfold InRange sub32
      dsimp only
      constructor
      · rintro (h | h)
        · exact ⟨Or.inl (by omega), by omega⟩
        · exact ⟨Or.inr h.1, h.2⟩
      · rintro ⟨h | h, h'⟩
        · exact Or.inl (by omega)
        · exact Or.inr ⟨h, h'⟩

theorem subtractOne_normFrom (exc : UInt32Range) (hexc : ValidRange exc) :
    ∀ (l : List UInt32Range) (lo : Nat), NormFrom lo l → NormFrom lo (subtractOne exc l) := by
  intro l
  induction l with
  | nil => intro lo _; trivial
  | cons res rest ih =>
    intro lo h
    obtain ⟨hlo, hres, hrest⟩ := h
    have ih' := ih _ hrest
    unfold ValidRange at hexc hres
    unfold subtractOne
    split_ifs with h1 h2 h3 h4
    · exact ⟨hlo, hres, ih'⟩
    · exact normFrom_mono (by omega) ih'
    · refine ⟨hlo, ?_, ?_, ?_, ih'⟩
      · unfold ValidRange sub32; dsimp only; omega
      · unfold sub32 add32; dsimp only; omega
      · unfold ValidRange add32; dsimp only; omega
    · refine ⟨?_, ?_, ih'⟩
      · unfold add32; dsimp only; omega
      · unfold ValidRange add32; dsimp only; omega
    · refine ⟨hlo, ?_, ?_⟩
      · unfold ValidRange sub32; dsimp only; omega
      · apply normFrom_mono _ ih'
        unfold sub32; dsimp only; omega

theorem subtractRanges_normFrom :
    ∀ (B A : List UInt32Range), (∀ e ∈ B, ValidRange e) → NormFrom 0 A →
      NormFrom 0 (subtractRanges A B) := by
  intro B
  induction B with
  | nil => intro A _ hA; exact hA
  | cons e B ih =>
    intro A hB hA
    unfold subtractRanges
    rw [List.foldl_cons]
    exact ih _ (fun q hq => hB q (List.mem_cons_of_mem _ hq))
      (subtractOne_normFrom e (hB e (List.mem_cons_self _ _)) A 0 hA)

theorem subtractRanges_covers (x : Nat) :
    ∀ (B A : List UInt32Range), (∀ e ∈ B, ValidRange e) → NormFrom 0 A →
      (Covers (subtractRanges A B) x ↔ Covers A x ∧ ¬ Covers B x) := by
  intro B
  induction B with
  | nil => intro A _ _; simp [subtractRanges, covers_nil]
  | cons e B ih =>
    intro A hB hA
    have he := hB e (List.mem_cons_self _ _)
    have h1 := subtractOne_normFrom e he A 0 hA
    have h2 := ih (subtractOne e A) (fun q hq => hB q (List.mem_cons_of_mem _ hq)) h1
    unfold subtractRanges at h2 ⊢
    rw [List.foldl_cons, h2, subtractOne_covers e he x A (normFrom_valid hA), covers_cons]
    tauto

/-- C2: for all normalized range lists `A` and `B` and every address `x`, `x`
lies in some range of `subtractRanges(A, B)` exactly when it lies in some range
of `A` and in no range of `B`. -/
theorem subtractRanges_correct (A B : List UInt32Range) (hA : NormalizedSet A)
    (hB : NormalizedSet B) (x : Nat) :
    (∃ r ∈ subtractRanges A B, r.start ≤ x ∧ x ≤ r.end) ↔
      (∃ r ∈ A, r.start ≤ x ∧ x ≤ r.end) ∧ ¬ ∃ r ∈ B, r.start ≤ x ∧ x ≤ r.end :=
  subtractRanges_covers x B A hB.1 ((normalizedSet_iff_normFrom A).mp hA)

theorem subtractRanges_correct_witness :
    NormalizedSet [⟨0, 10⟩, ⟨20, 30⟩] ∧ NormalizedSet [⟨3, 4⟩, ⟨8, 22⟩] ∧
      ((∃ r ∈ subtractRanges [⟨0, 10⟩, ⟨20, 30⟩] [⟨3, 4⟩, ⟨8, 22⟩], r.start ≤ 5 ∧ 5 ≤ r.end) ↔
        (∃ r ∈ [(⟨0, 10⟩ : UInt32Range), ⟨20, 30⟩], r.start ≤ 5 ∧ 5 ≤ r.end) ∧
          ¬ ∃ r ∈ [(⟨3, 4⟩ : UInt32Range), ⟨8, 22⟩], r.start ≤ 5 ∧ 5 ≤ r.end) :=
  have hA : NormalizedSet [⟨0, 10⟩, ⟨20, 30⟩] := by
    rw [normalizedSet_iff_normFrom]; simp [NormFrom, ValidRange]
  have hB : NormalizedSet [⟨3, 4⟩, ⟨8, 22⟩] := by
    rw [normalizedSet_iff_normFrom]; simp [NormFrom, ValidRange]
  ⟨hA, hB, subtractRanges_correct [⟨0, 10⟩, ⟨20, 30⟩] [⟨3, 4⟩, ⟨8, 22⟩] hA hB 5⟩

/-- C7: for all normalized range lists `A` and `B`, `subtractRanges(A, B)` is
again a NormalizedSet: every result range has `start <= end`, and consecutive
result ranges `r`, `r'` satisfy `r.end < 0xFFFFFFFF` and `r'.start > r.end + 1`. -/
theorem subtractRanges_normalized (A B : List UInt32Range) (hA : NormalizedSet A)
    (hB : NormalizedSet B) :
    (∀ r ∈ subtractRanges A B, r.start ≤ r.end ∧ r.end ≤ 4294967295) ∧
      (subtractRanges A B).Chain' (fun r r' => r.end < 4294967295 ∧ r'.start > r.end + 1) :=
  (normalizedSet_iff_normFrom _).mpr
    (subtractRanges_normFrom B A hB.1 ((normalizedSet_iff_normFrom A).mp hA))

theorem subtractRanges_normalized_witness :
    NormalizedSet [⟨0, 10⟩, ⟨20, 30⟩] ∧ NormalizedSet [⟨3, 4⟩, ⟨8, 22⟩] ∧
      ((∀ r ∈ subtractRanges [⟨0, 10⟩, ⟨20, 30⟩] [⟨3, 4⟩, ⟨8, 22⟩],
          r.start ≤ r.end ∧ r.end ≤ 4294967295) ∧
        (subtractRanges [⟨0, 10⟩, ⟨20, 30⟩] [⟨3, 4⟩, ⟨8, 22⟩]).Chain'
          (fun r r' => r.end < 4294967295 ∧ r'.start > r.end + 1)) :=
  have hA : NormalizedSet [⟨0, 10⟩, ⟨20, 30⟩] := by
    rw [normalizedSet_iff_normFrom]; simp [NormFrom, ValidRange]
  have hB : NormalizedSet [⟨3, 4⟩, ⟨8, 22⟩] := by
    rw [normalizedSet_iff_normFrom]; simp [NormFrom, ValidRange]
  ⟨hA, hB, subtractRanges_normalized [⟨0, 10⟩, ⟨20, 30⟩] [⟨3, 4⟩, ⟨8, 22⟩] hA hB⟩

/-! ## convertRangeToCidrs -/

theorem shl32_one_of_le {size : Nat} (h : size ≤ 2147483647) : shl32 size 1 = size * 2 := by
  unfold shl32
  rw [Nat.shiftLeft_eq]
  omega

theorem sub32_one_of_pos {n : Nat} (h1 : 1 ≤ n) (h2 : n ≤ 4294967296) : sub32 n 1 = n - 1 := by
  unfold sub32
  omega

/-- Alignment test of the source: `(ip & ~(2^k - 1)) == ip` says that `ip` is a
multiple of `2^k`. -/
theorem and_not32_eq_self_iff {cur : Nat} (hcur : cur < 4294967296) (k : Nat) :
    cur &&& not32 (2 ^ k - 1) = cur ↔ cur % 2 ^ k = 0 := by
  unfold not32
  have h32 : cur &&& 4294967295 = cur := by
    have := Nat.and_pow_two_sub_one_eq_mod cur 32
    norm_num at this
    rw [this]
    exact Nat.mod_eq_of_lt hcur
  rw [Nat.and_xor_distrib_left, Nat.and_pow_two_sub_one_eq_mod, h32]
  constructor
  · intro h
    have h' : cur % 2 ^ k ^^^ cur = 0 ^^^ cur := by rw [Nat.zero_xor]; exact h
    exact Nat.xor_left_inj.mp h'
  · intro h
    rw [h, Nat.zero_xor]

theorem growSize_pow (range : UInt32Range) (cur : Nat) (hcur : cur < 4294967296) :
    ∀ (fuel j : Nat), j ≤ 31 → 32 ≤ fuel + j → cur % 2 ^ j = 0 →
      ∃ k, j ≤ k ∧ k ≤ 31 ∧ growSize range cur fuel (2 ^ j) = some (2 ^ k) ∧
        cur % 2 ^ k = 0 := by
  intro fuel
  induction fuel with
  | zero => intro j h1 h2 _; omega
  | succ fuel ih =>
    intro j hj hfuel hal
    unfold growSize
    by_cases hbig : 2 ^ j > 4294967295 / 2
    · rw [if_pos hbig]
      exact ⟨j, le_refl _, hj, rfl, hal⟩
    · rw [if_neg hbig]
      have hj30 : j ≤ 30 := by
        by_contra hcon
        have : j = 31 := by omega
        subst this
        norm_num at hbig
      have hle : 2 ^ j ≤ 2147483647 := by
        have : (4294967295 : Nat) / 2 = 2147483647 := by norm_num
        omega
      have hpos : 1 ≤ 2 ^ j := Nat.one_le_two_pow
      have hnext : shl32 (2 ^ j) 1 = 2 ^ (j + 1) := by
        rw [shl32_one_of_le hle, pow_succ]
      dsimp only
      rw [hnext, sub32_one_of_pos (Nat.one_le_two_pow) (by rw [pow_succ]; omega)]
      split_ifs with hbrk
      · exact ⟨j, le_refl _, hj, rfl, hal⟩
      · have hal' : cur % 2 ^ (j + 1) = 0 := by
          rw [← and_not32_eq_self_iff hcur]
          by_contra hne
          exact hbrk (Or.inl hne)
        obtain ⟨k, hk1, hk2, hk3, hk4⟩ := ih (j + 1) (by omega) (by omega) hal'
        exact ⟨k, by omega, hk2, hk3, hk4⟩

theorem maskOfSize_pow (k : Nat) (hk : k ≤ 31) : maskOfSize (2 ^ k) = 2 ^ 32 - 2 ^ k := by
  interval_cases k <;> rfl

theorem popcount_prefix_mask (k : Nat) (hk : k ≤ 32) :
    convertMaskToPrefixLength (2 ^ 32 - 2 ^ k) = 32 - k := by
  interval_cases k <;> rfl

theorem prefix_mask_eq_not32 (k : Nat) (hk : k ≤ 32) : 2 ^ 32 - 2 ^ k = not32 (2 ^ k - 1) := by
  interval_cases k <;> rfl

theorem prefix_mask_testBit (k : Nat) (hk : k ≤ 32) (i : Nat) :
    (2 ^ 32 - 2 ^ k).testBit i = decide (k ≤ i ∧ i < 32) := by
  rw [prefix_mask_eq_not32 k hk]
  unfold not32
  have h : (4294967295 : Nat) = 2 ^ 32 - 1 := by norm_num
  rw [h, Nat.testBit_xor, Nat.testBit_two_pow_sub_one, Nat.testBit_two_pow_sub_one]
  by_cases h1 : i < k <;> by_cases h2 : i < 32 <;> simp [h1, h2] <;> omega

theorem wellFormed_of_pow {cur k : Nat} (hcur : cur < 4294967296) (hk : k ≤ 31)
    (hal : cur % 2 ^ k = 0) : WellFormedBlock { ip := cur, mask := maskOfSize (2 ^ k) } := by
  have hn : 32 - (32 - k) = k := by omega
  refine ⟨32 - k, by omega, ?_, ?_, ?_, ?_, ?_⟩
  · dsimp only; rw [hn, maskOfSize_pow k hk]
  · dsimp only; rw [hn, maskOfSize_pow k hk]
    exact prefix_mask_testBit k (by omega)
  · dsimp only; rw [maskOfSize_pow k hk]
    exact popcount_prefix_mask k (by omega)
  · dsimp only; rw [hn]; exact hal
  · dsimp only
    rw [maskOfSize_pow k hk, prefix_mask_eq_not32 k (by omega)]
    exact (and_not32_eq_self_iff hcur k).mpr hal

theorem convertLoop_wellFormed (range : UInt32Range) (hmax : range.end ≤ 4294967295) :
    ∀ (fuel cur : Nat), range.end + 1 - cur ≤ fuel →
      ∃ bs, convertLoop range fuel cur = some bs ∧ ∀ b ∈ bs, WellFormedBlock b := by
  intro fuel
  induction fuel with
  | zero =>
    intro cur hfuel
    unfold convertLoop
    rw [if_neg (by omega)]
    exact ⟨[], rfl, by simp⟩
  | succ fuel ih =>
    intro cur hfuel
    unfold convertLoop
    by_cases hin : cur ≥ range.start ∧ cur ≤ range.end
    · rw [if_pos hin]
      have hcur : cur < 4294967296 := by omega
      obtain ⟨k, _, hk, hgrow, hal⟩ :=
        growSize_pow range cur hcur 32 0 (by omega) (by omega) (by rw [pow_zero]; exact Nat.mod_one _)
      rw [pow_zero] at hgrow
      have hwf := wellFormed_of_pow hcur hk hal
      have hpos : 1 ≤ 2 ^ k := Nat.one_le_two_pow
      have hle : 2 ^ k ≤ 2 ^ 31 := Nat.pow_le_pow_right (by omega) hk
      have hsub : sub32 4294967295 (2 ^ k) = 4294967295 - 2 ^ k := by unfold sub32; omega
      simp only [hgrow, hsub]
      split_ifs with h1 h2
      · exact ⟨_, rfl, by simpa using hwf⟩
      · exact ⟨_, rfl, by simpa using hwf⟩
      · have hadd : add32 cur (2 ^ k) = cur + 2 ^ k := by unfold add32; omega
        rw [hadd]
        obtain ⟨bs, hbs, hall⟩ := ih (cur + 2 ^ k) (by omega)
        rw [hbs]
        refine ⟨_, rfl, ?_⟩
        intro b hb
        rcases List.mem_cons.mp hb with rfl | hb
        · exact hwf
        · exact hall b hb
    · rw [if_neg hin]
      exact ⟨[], rfl, by simp⟩

/-- C10: for every range, so also for one with `start <= end`,
`convertRangeToCidrs` returns, and
every block `{ip, mask}` it emits is well formed: for some `0 <= n <= 32` the
mask is `n` one-bits followed by `32 - n` zero-bits,
`convertMaskToPrefixLength(mask) = n`, `ip mod 2^(32-n) = 0` and `ip & mask = ip`. -/
theorem convertRangeToCidrs_wellFormed (range : UInt32Range)
    (hmax : range.end ≤ 4294967295) :
    ∃ bs, convertRangeToCidrs range = some bs ∧
      ∀ b ∈ bs, ∃ n, n ≤ 32 ∧ b.mask = 2 ^ 32 - 2 ^ (32 - n) ∧
        (∀ i, b.mask.testBit i = decide (32 - n ≤ i ∧ i < 32)) ∧
        convertMaskToPrefixLength b.mask = n ∧
        b.ip % 2 ^ (32 - n) = 0 ∧ b.ip &&& b.mask = b.ip :=
  convertLoop_wellFormed range hmax _ range.start (by omega)

theorem convertRangeToCidrs_wellFormed_witness :
    (20 : Nat) ≤ 4294967295 ∧
      ∃ bs, convertRangeToCidrs ⟨10, 20⟩ = some bs ∧
        ∀ b ∈ bs, ∃ n, n ≤ 32 ∧ b.mask = 2 ^ 32 - 2 ^ (32 - n) ∧
          (∀ i, b.mask.testBit i = decide (32 - n ≤ i ∧ i < 32)) ∧
          convertMaskToPrefixLength b.mask = n ∧
          b.ip % 2 ^ (32 - n) = 0 ∧ b.ip &&& b.mask = b.ip :=
  ⟨by decide, convertRangeToCidrs_wellFormed ⟨10, 20⟩ (by decide)⟩

/-! ## Behaviour at address zero and on the whole address space -/

/-- C3: on the range `[0, 0]` the code emits the single block `0.0.0.0/1`; the
address `1` lies inside that block and outside the range, so the union of the
emitted blocks is not the range. -/
theorem convertRangeToCidrs_zero_overshoots :
    convertRangeToCidrs ⟨0, 0⟩ = some [⟨0, 2147483648⟩] ∧
      InBlock ⟨0, 2147483648⟩ 1 ∧ ¬ InRange ⟨0, 0⟩ 1 := by
  refine ⟨by decide, by decide, by decide⟩

/-- C1: for the single include block `0.0.0.0/8` and no exclusion the code
returns the single block `0.0.0.0/1`; the address `1.0.0.0` lies inside the
returned block and inside no include block. -/
theorem processRanges_zero_include_overshoots :
    processRanges [⟨0, 4278190080⟩] [] = some [⟨0, 2147483648⟩] ∧
      InBlock ⟨0, 2147483648⟩ 16777216 ∧ ¬ InBlock ⟨0, 4278190080⟩ 16777216 := by
  refine ⟨by decide, by decide, by decide⟩

/-- C8: on the range `[0, 0xFFFFFFFF]` the code emits the two blocks
`0.0.0.0/1` and `128.0.0.0/1`, a consecutive pair of equal size that the single
block `0.0.0.0/0` would replace. -/
theorem convertRangeToCidrs_full_space_mergeable :
    convertRangeToCidrs ⟨0, 4294967295⟩ =
        some [⟨0, 2147483648⟩, ⟨2147483648, 2147483648⟩] ∧
      Mergeable ⟨0, 2147483648⟩ ⟨2147483648, 2147483648⟩ := by
  refine ⟨by decide, by decide⟩

/-- C9: with no include and no exclude `processRanges` returns the two blocks
`0.0.0.0/1` and `128.0.0.0/1`, not the one block `0.0.0.0/0`. -/
theorem processRanges_empty_two_blocks :
    processRanges [] [] = some [⟨0, 2147483648⟩, ⟨2147483648, 2147483648⟩] ∧
      processRanges [] [] ≠ some [⟨0, 0⟩] := by
  refine ⟨by decide, by decide⟩

/-! ## Blocks and their address spans -/

theorem convertToUInt32Ranges_eq_map (l : List IPRange) :
    convertToUInt32Ranges l = l.map blockRange := rfl

theorem and_prefix_mask {x : Nat} (hx : x < 4294967296) (k : Nat) (hk : k ≤ 32) :
    x &&& (2 ^ 32 - 2 ^ k) = 2 ^ k * (x / 2 ^ k) := by
  apply Nat.eq_of_testBit_eq
  intro j
  rw [Nat.testBit_and, prefix_mask_testBit k hk, Nat.testBit_mul_pow_two]
  have hsplit : x.testBit j =
      if j < k then (x % 2 ^ k).testBit j else (x / 2 ^ k).testBit (j - k) := by
    have h := Nat.testBit_mul_pow_two_add (x / 2 ^ k) (Nat.mod_lt x (Nat.two_pow_pos k)) j
    rw [Nat.div_add_mod] at h
    exact h
  by_cases hjk : j < k
  · have h1 : ¬ (k ≤ j ∧ j < 32) := by omega
    have h2 : ¬ (j ≥ k) := by omega
    simp [h1, h2]
  · rw [if_neg hjk] at hsplit
    have h2 : j ≥ k := by omega
    by_cases hj : j < 32
    · have h1 : k ≤ j ∧ j < 32 := ⟨h2, hj⟩
      simp [h1, h2, hsplit]
    · have hfalse : x.testBit j = false := by
        apply Nat.testBit_lt_two_pow
        calc x < 2 ^ 32 := by norm_num; exact hx
          _ ≤ 2 ^ j := Nat.pow_le_pow_right (by omega) (by omega)
      have h1 : ¬ (k ≤ j ∧ j < 32) := by omega
      rw [← hsplit, hfalse]
      simp [h1]

theorem not32_prefix_mask (k : Nat) (hk : k ≤ 32) : not32 (2 ^ 32 - 2 ^ k) = 2 ^ k - 1 := by
  interval_cases k <;> rfl

/-- The span of a block with the mask of `32 - k` leading one-bits: it starts at
`ip` rounded down to a multiple of `2^k` and holds `2^k` addresses. -/
theorem blockRange_prefix_mask {ip : Nat} (hip : ip < 4294967296) (k : Nat) (hk : k ≤ 32) :
    blockRange ⟨ip, 2 ^ 32 - 2 ^ k⟩ =
      ⟨2 ^ k * (ip / 2 ^ k), 2 ^ k * (ip / 2 ^ k) + (2 ^ k - 1)⟩ := by
  unfold blockRange
  dsimp only
  rw [and_prefix_mask hip k hk, not32_prefix_mask k hk]
  have hlt : 2 ^ k - 1 < 2 ^ k := by
    have := Nat.two_pow_pos k
    omega
  rw [Nat.mul_add_lt_is_or hlt]

theorem div_eq_iff_bounds (x q P : Nat) (hP : 0 < P) :
    x / P = q ↔ P * q ≤ x ∧ x ≤ P * q + (P - 1) := by
  constructor
  · intro h
    subst h
    have h1 := Nat.div_add_mod x P
    have h2 := Nat.mod_lt x hP
    constructor
    · omega
    · omega
  · rintro ⟨h1, h2⟩
    apply Nat.div_eq_of_lt_le
    · rw [Nat.mul_comm]; exact h1
    · have : P * q + (P - 1) < (q + 1) * P := by
        rw [Nat.add_mul, Nat.one_mul, Nat.mul_comm]
        omega
      exact lt_of_le_of_lt h2 this

/-- For a prefix mask, agreeing with `ip` on the mask bits is the same as lying
in the address span of the block. -/
theorem inBlock_iff_inRange {b : IPRange} (hb : ValidBlock b) {x : Nat}
    (hx : x < 4294967296) : InBlock b x ↔ InRange (blockRange b) x := by
  obtain ⟨hip, n, hn, hm⟩ := hb
  obtain ⟨ip, m⟩ := b
  dsimp only at hip hm
  subst hm
  have hk : 32 - n ≤ 32 := by omega
  have hpos := Nat.two_pow_pos (32 - n)
  rw [blockRange_prefix_mask (by omega) _ hk]
  unfold InBlock InRange
  dsimp only
  rw [and_prefix_mask hx _ hk, and_prefix_mask (by omega) _ hk]
  rw [← div_eq_iff_bounds x _ _ hpos]
  constructor
  · intro h
    exact Nat.eq_of_mul_eq_mul_left hpos h
  · intro h
    rw [h]

theorem blockRange_valid {b : IPRange} (hb : ValidBlock b) : ValidRange (blockRange b) := by
  obtain ⟨hip, n, hn, hm⟩ := hb
  obtain ⟨ip, m⟩ := b
  dsimp only at hip hm
  subst hm
  have hk : 32 - n ≤ 32 := by omega
  have hpos := Nat.two_pow_pos (32 - n)
  rw [blockRange_prefix_mask (by omega) _ hk]
  unfold ValidRange
  dsimp only
  refine ⟨by omega, ?_⟩
  have h1 := Nat.div_add_mod ip (2 ^ (32 - n))
  have h2 : (4294967296 : Nat) = 2 ^ (32 - n) * 2 ^ n := by
    rw [← pow_add]
    have : 32 - n + n = 32 := by omega
    rw [this]
    norm_num
  have h3 : ip / 2 ^ (32 - n) < 2 ^ n := by
    apply Nat.div_lt_of_lt_mul
    omega
  have h4 : 2 ^ (32 - n) * (ip / 2 ^ (32 - n) + 1) ≤ 2 ^ (32 - n) * 2 ^ n :=
    Nat.mul_le_mul_left _ h3
  rw [Nat.mul_add, Nat.mul_one] at h4
  omega

/-! ## The loops of convertRangeToCidrs, round by round -/

theorem growSize_fits (range : UInt32Range) (hmax : range.end ≤ 4294967295) (cur : Nat)
    (hpos : 1 ≤ cur) (hle : cur ≤ range.end) :
    ∀ (fuel j : Nat), j ≤ 31 → 32 ≤ fuel + j → cur % 2 ^ j = 0 → cur + 2 ^ j - 1 ≤ range.end →
      ∃ k, k ≤ 31 ∧ growSize range cur fuel (2 ^ j) = some (2 ^ k) ∧
        cur % 2 ^ k = 0 ∧ cur + 2 ^ k - 1 ≤ range.end := by
  intro fuel
  induction fuel with
  | zero => intro j h1 h2 _ _; omega
  | succ fuel ih =>
    intro j hj hfuel hal hfit
    unfold growSize
    by_cases hbig : 2 ^ j > 4294967295 / 2
    · rw [if_pos hbig]
      exact ⟨j, hj, rfl, hal, hfit⟩
    · rw [if_neg hbig]
      have hj30 : j ≤ 30 := by
        by_contra hcon
        have : j = 31 := by omega
        subst this
        norm_num at hbig
      have hle2 : 2 ^ j ≤ 2147483647 := by
        have : (4294967295 : Nat) / 2 = 2147483647 := by norm_num
        omega
      have hnext : shl32 (2 ^ j) 1 = 2 ^ (j + 1) := by
        rw [shl32_one_of_le hle2, pow_succ]
      have hp1 : 1 ≤ 2 ^ (j + 1) := Nat.one_le_two_pow
      dsimp only
      rw [hnext, sub32_one_of_pos hp1 (by rw [pow_succ]; omega)]
      split_ifs with hbrk
      · exact ⟨j, hj, rfl, hal, hfit⟩
      · have hal' : cur % 2 ^ (j + 1) = 0 := by
          rw [← and_not32_eq_self_iff (by omega)]
          by_contra hne
          exact hbrk (Or.inl hne)
        have hge : 2 ^ (j + 1) ≤ cur := by
          by_contra hlt
          rw [Nat.mod_eq_of_lt (by omega)] at hal'
          omega
        have hend : ¬ cur > sub32 range.end (2 ^ (j + 1) - 1) := fun h => hbrk (Or.inr h)
        have hsub : sub32 range.end (2 ^ (j + 1) - 1) = range.end - (2 ^ (j + 1) - 1) := by
          unfold sub32; omega
        rw [hsub] at hend
        exact ih (j + 1) (by omega) (by omega) hal' (by omega)

/-- One round of the outer loop, with the inner loop and the mask evaluated. -/
theorem convertLoop_step (range : UInt32Range) (hmax : range.end ≤ 4294967295)
    (fuel cur : Nat) (h1 : range.start ≤ cur) (h2 : cur ≤ range.end) :
    ∃ k, k ≤ 31 ∧ cur % 2 ^ k = 0 ∧ growSize range cur 32 1 = some (2 ^ k) ∧
      (1 ≤ cur → cur + 2 ^ k - 1 ≤ range.end) ∧
      convertLoop range (fuel + 1) cur =
        if cur = range.end then some [⟨cur, 2 ^ 32 - 2 ^ k⟩]
        else if cur > 4294967295 - 2 ^ k then some [⟨cur, 2 ^ 32 - 2 ^ k⟩]
        else (convertLoop range fuel (cur + 2 ^ k)).map (fun bs => ⟨cur, 2 ^ 32 - 2 ^ k⟩ :: bs) := by
  have hcur : cur < 4294967296 := by omega
  have hk : ∃ k, k ≤ 31 ∧ cur % 2 ^ k = 0 ∧ growSize range cur 32 1 = some (2 ^ k) ∧
      (1 ≤ cur → cur + 2 ^ k - 1 ≤ range.end) := by
    by_cases hpos : 1 ≤ cur
    · obtain ⟨k, hk, hg, hal, hfit⟩ := growSize_fits range hmax cur hpos h2 32 0 (by omega)
        (by omega) (by rw [pow_zero]; exact Nat.mod_one _) (by rw [pow_zero]; omega)
      rw [pow_zero] at hg
      exact ⟨k, hk, hal, hg, fun _ => hfit⟩
    · obtain ⟨k, _, hk, hg, hal⟩ := growSize_pow range cur hcur 32 0 (by omega) (by omega)
        (by rw [pow_zero]; exact Nat.mod_one _)
      rw [pow_zero] at hg
      exact ⟨k, hk, hal, hg, fun h => absurd h hpos⟩
  obtain ⟨k, hk, hal, hg, hfit⟩ := hk
  refine ⟨k, hk, hal, hg, hfit, ?_⟩
  have hle : 2 ^ k ≤ 2 ^ 31 := Nat.pow_le_pow_right (by omega) hk
  have hsub : sub32 4294967295 (2 ^ k) = 4294967295 - 2 ^ k := by unfold sub32; omega
  conv_lhs => unfold convertLoop
  rw [if_pos ⟨h1, h2⟩]
  simp only [hg, hsub, maskOfSize_pow k hk]
  split_ifs with h3 h4
  · rfl
  · rfl
  · have hadd : add32 cur (2 ^ k) = cur + 2 ^ k := by unfold add32; omega
    rw [hadd]

theorem convertLoop_out (range : UInt32Range) (fuel cur : Nat)
    (h : ¬ (cur ≥ range.start ∧ cur ≤ range.end)) : convertLoop range fuel cur = some [] := by
  unfold convertLoop
  rw [if_neg h]

/-- The span of an emitted block: it starts at its address and holds `2^k`
addresses. -/
theorem blockRange_aligned {cur k : Nat} (hcur : cur < 4294967296) (hk : k ≤ 32)
    (hal : cur % 2 ^ k = 0) :
    blockRange ⟨cur, 2 ^ 32 - 2 ^ k⟩ = ⟨cur, cur + (2 ^ k - 1)⟩ := by
  rw [blockRange_prefix_mask hcur k hk]
  have h := Nat.div_add_mod cur (2 ^ k)
  rw [hal, Nat.add_zero] at h
  rw [h]

/-- What the outer loop started at `cur` emits: aligned blocks at addresses from
`cur` up to `range.end`, each ending before every later one starts; and when
`cur` is at least `1` and at least `range.start`, blocks that stay below
`range.end` and cover exactly `[cur, range.end]`. -/
theorem convertLoop_blocks (range : UInt32Range) (hmax : range.end ≤ 4294967295) :
    ∀ (fuel cur : Nat), range.end + 1 - cur ≤ fuel →
      ∃ bs, convertLoop range fuel cur = some bs ∧
        (∀ b ∈ bs, cur ≤ b.ip ∧ b.ip ≤ range.end ∧
          ∃ k, k ≤ 31 ∧ b.mask = 2 ^ 32 - 2 ^ k ∧ b.ip % 2 ^ k = 0 ∧
            (1 ≤ cur → b.ip + 2 ^ k - 1 ≤ range.end)) ∧
        bs.Pairwise (fun b b' => (blockRange b).end < b'.ip) ∧
        (1 ≤ cur → range.start ≤ cur →
          ∀ x, (∃ b ∈ bs, InRange (blockRange b) x) ↔ cur ≤ x ∧ x ≤ range.end) := by
  intro fuel
  induction fuel with
  | zero =>
    intro cur hfuel
    refine ⟨[], convertLoop_out range 0 cur (by omega), by simp, List.Pairwise.nil, ?_⟩
    intro _ _ x
    simp only [List.not_mem_nil, false_and, exists_false, false_iff]
    omega
  | succ fuel ih =>
    intro cur hfuel
    by_cases hin : cur ≥ range.start ∧ cur ≤ range.end
    · obtain ⟨k, hk, hal, _, hfit, hstep⟩ := convertLoop_step range hmax fuel cur hin.1 hin.2
      have hcur : cur < 4294967296 := by omega
      have hpos : 1 ≤ 2 ^ k := Nat.one_le_two_pow
      have hspan := blockRange_aligned hcur (by omega : k ≤ 32) hal
      have hb0 : cur ≤ cur ∧ cur ≤ range.end ∧
          ∃ k', k' ≤ 31 ∧ 2 ^ 32 - 2 ^ k = 2 ^ 32 - 2 ^ k' ∧ cur % 2 ^ k' = 0 ∧
            (1 ≤ cur → cur + 2 ^ k' - 1 ≤ range.end) :=
        ⟨le_refl _, hin.2, k, hk, rfl, hal, hfit⟩
      have hone : ((cur = range.end ∨ cur > 4294967295 - 2 ^ k) →
          (1 ≤ cur → range.start ≤ cur →
            ∀ x, (∃ b ∈ [(⟨cur, 2 ^ 32 - 2 ^ k⟩ : IPRange)], InRange (blockRange b) x) ↔
              cur ≤ x ∧ x ≤ range.end)) := by
        intro hstop h1 _ x
        have := hfit h1
        simp only [List.mem_singleton, exists_eq_left, hspan]
        unfold InRange
        dsimp only
        omega
      rw [hstep]
      split_ifs with h3 h4
      · refine ⟨_, rfl, ?_, List.pairwise_singleton _ _, hone (Or.inl h3)⟩
        intro b hb
        rw [List.mem_singleton] at hb
        subst hb
        exact hb0
      · refine ⟨_, rfl, ?_, List.pairwise_singleton _ _, hone (Or.inr h4)⟩
        intro b hb
        rw [List.mem_singleton] at hb
        subst hb
        exact hb0
      · obtain ⟨bs, hbs, hall, hpair, hcov⟩ := ih (cur + 2 ^ k) (by omega)
        rw [hbs]
        refine ⟨_, rfl, ?_, ?_, ?_⟩
        · intro b hb
          rcases List.mem_cons.mp hb with rfl | hb
          · exact hb0
          · obtain ⟨q1, q2, k', q3, q4, q5, q6⟩ := hall b hb
            exact ⟨by omega, q2, k', q3, q4, q5, fun _ => q6 (by omega)⟩
        · rw [List.pairwise_cons]
          refine ⟨?_, hpair⟩
          intro b hb
          have := (hall b hb).1
          rw [hspan]
          dsimp only
          omega
        · intro h1 hs x
          have hfit' := hfit h1
          have hc := hcov (by omega) (by omega) x
          simp only [List.mem_cons, exists_eq_or_imp, hspan]
          rw [hc]
          unfold InRange
          dsimp only
          omega
    · refine ⟨[], convertLoop_out range _ cur hin, by simp, List.Pairwise.nil, ?_⟩
      intro _ hs x
      simp only [List.not_mem_nil, false_and, exists_false, false_iff]
      omega

/-- Fuel beyond what the loop needs does not change its result. -/
theorem convertLoop_fuel_succ (range : UInt32Range) :
    ∀ (fuel cur : Nat) (bs : List IPRange), convertLoop range fuel cur = some bs →
      convertLoop range (fuel + 1) cur = some bs := by
  intro fuel
  induction fuel with
  | zero =>
    intro cur bs h
    by_cases hin : cur ≥ range.start ∧ cur ≤ range.end
    · unfold convertLoop at h
      rw [if_pos hin] at h
      simp at h
    · rw [convertLoop_out range _ cur hin] at h ⊢
      exact h
  | succ fuel ih =>
    intro cur bs h
    by_cases hin : cur ≥ range.start ∧ cur ≤ range.end
    · unfold convertLoop at h
      conv_lhs => unfold convertLoop
      rw [if_pos hin] at h ⊢
      cases hg : growSize range cur 32 1 with
      | none => simp [hg] at h
      | some size =>
        simp only [hg] at h ⊢
        by_cases h3 : cur = range.end
        · rw [if_pos h3] at h ⊢
          exact h
        · rw [if_neg h3] at h ⊢
          by_cases h4 : cur > sub32 4294967295 size
          · rw [if_pos h4] at h ⊢
            exact h
          · rw [if_neg h4] at h ⊢
            cases hrec : convertLoop range fuel (add32 cur size) with
            | none => simp [hrec] at h
            | some bs' =>
              rw [ih _ _ hrec]
              rw [hrec] at h
              exact h
    · rw [convertLoop_out range _ cur hin] at h ⊢
      exact h

theorem convertLoop_fuel_le (range : UInt32Range) (cur : Nat) (bs : List IPRange) :
    ∀ (fuel fuel' : Nat), fuel ≤ fuel' → convertLoop range fuel cur = some bs →
      convertLoop range fuel' cur = some bs := by
  intro fuel fuel' hle h
  induction hle with
  | refl => exact h
  | step _ ih => exact convertLoop_fuel_succ range _ cur bs ih

theorem emitted_span {b : IPRange} {k : Nat} (hip : b.ip ≤ 4294967295) (hk : k ≤ 31)
    (hm : b.mask = 2 ^ 32 - 2 ^ k) (hal : b.ip % 2 ^ k = 0) :
    blockRange b = ⟨b.ip, b.ip + (2 ^ k - 1)⟩ := by
  obtain ⟨ip, m⟩ := b
  dsimp only at hip hm hal ⊢
  subst hm
  exact blockRange_aligned (by omega) (by omega) hal

theorem emitted_validBlock {b : IPRange} {k : Nat} (hip : b.ip ≤ 4294967295) (hk : k ≤ 31)
    (hm : b.mask = 2 ^ 32 - 2 ^ k) : ValidBlock b := by
  refine ⟨hip, 32 - k, by omega, ?_⟩
  have : 32 - (32 - k) = k := by omega
  rw [this, hm]

theorem growSize_zero (range : UInt32Range) :
    ∀ (fuel j : Nat), j ≤ 31 → 32 ≤ fuel + j →
      growSize range 0 fuel (2 ^ j) = some (2 ^ 31) := by
  intro fuel
  induction fuel with
  | zero => intro j h1 h2; omega
  | succ fuel ih =>
    intro j hj hfuel
    unfold growSize
    by_cases hbig : 2 ^ j > 4294967295 / 2
    · rw [if_pos hbig]
      have : j = 31 := by
        by_contra hne
        have hj30 : j ≤ 30 := by omega
        have : 2 ^ j ≤ 2 ^ 30 := Nat.pow_le_pow_right (by omega) hj30
        norm_num at hbig this
        omega
      rw [this]
    · rw [if_neg hbig]
      have hj30 : j ≤ 30 := by
        by_contra hcon
        have : j = 31 := by omega
        subst this
        norm_num at hbig
      have hle2 : 2 ^ j ≤ 2147483647 := by
        have : (4294967295 : Nat) / 2 = 2147483647 := by norm_num
        omega
      have hnext : shl32 (2 ^ j) 1 = 2 ^ (j + 1) := by
        rw [shl32_one_of_le hle2, pow_succ]
      dsimp only
      rw [hnext, Nat.zero_and]
      rw [if_neg (by
        intro h
        rcases h with h | h
        · exact h rfl
        · omega)]
      exact ih (j + 1) (by omega) (by omega)

/-! ## convertRangeToCidrs: order, termination, exactness -/

/-- C11: for every range, so also for one with `start <= end`, the blocks
emitted by `convertRangeToCidrs` are strictly ascending by address and do not
overlap: each block's span starts at its address, for consecutive blocks `b`,
`b'` the last address of `b`'s span is smaller than the address of `b'`, and the
same holds for any earlier and later block. -/
theorem convertRangeToCidrs_ascending (range : UInt32Range)
    (hmax : range.end ≤ 4294967295) :
    ∃ bs, convertRangeToCidrs range = some bs ∧
      (∀ b ∈ bs, (blockRange b).start = b.ip ∧ b.ip ≤ (blockRange b).end) ∧
      bs.Chain' (fun b b' => (blockRange b).end < b'.ip) ∧
      bs.Pairwise (fun b b' => b.ip < b'.ip ∧ (blockRange b).end < (blockRange b').start) := by
  obtain ⟨bs, hbs, hall, hpair, _⟩ :=
    convertLoop_blocks range hmax (range.end + 1 - range.start) range.start (le_refl _)
  have hspan : ∀ b ∈ bs, (blockRange b).start = b.ip ∧ b.ip ≤ (blockRange b).end := by
    intro b hb
    obtain ⟨_, h2, k, hk, hm, hal, _⟩ := hall b hb
    rw [emitted_span (by omega) hk hm hal]
    exact ⟨rfl, Nat.le_add_right _ _⟩
  refine ⟨bs, hbs, hspan, List.Pairwise.chain' hpair, ?_⟩
  refine List.Pairwise.imp_of_mem ?_ hpair
  intro b b' hb hb' hlt
  have h1 := hspan b hb
  have h2 := hspan b' hb'
  omega

theorem convertRangeToCidrs_ascending_witness :
    (20 : Nat) ≤ 4294967295 ∧
      ∃ bs, convertRangeToCidrs ⟨10, 20⟩ = some bs ∧
        (∀ b ∈ bs, (blockRange b).start = b.ip ∧ b.ip ≤ (blockRange b).end) ∧
        bs.Chain' (fun b b' => (blockRange b).end < b'.ip) ∧
        bs.Pairwise (fun b b' => b.ip < b'.ip ∧ (blockRange b).end < (blockRange b').start) :=
  ⟨by decide, convertRangeToCidrs_ascending ⟨10, 20⟩ (by decide)⟩

/-- C18: for every range, `convertRangeToCidrs` terminates: the loop returns
within `range.end + 1 - range.start` rounds, more rounds change nothing, and in
every round the inner loop returns a size of at least `1`; when the round goes
on to `current_ip += size`, then `current_ip + size <= 0xFFFFFFFF`, so the
addition does not wrap and `current_ip` grows. -/
theorem convertRangeToCidrs_terminates (range : UInt32Range)
    (hmax : range.end ≤ 4294967295) :
    (∃ bs, convertRangeToCidrs range = some bs ∧
      ∀ fuel, range.end + 1 - range.start ≤ fuel →
        convertLoop range fuel range.start = some bs) ∧
    ∀ cur, range.start ≤ cur → cur ≤ range.end →
      ∃ size, growSize range cur 32 1 = some size ∧ 1 ≤ size ∧
        (cur ≠ range.end → ¬ cur > sub32 4294967295 size →
          cur + size ≤ 4294967295 ∧ add32 cur size = cur + size ∧ cur < add32 cur size) := by
  constructor
  · obtain ⟨bs, hbs, _⟩ :=
      convertLoop_blocks range hmax (range.end + 1 - range.start) range.start (le_refl _)
    exact ⟨bs, hbs, fun fuel hle => convertLoop_fuel_le range _ bs _ fuel hle hbs⟩
  · intro cur h1 h2
    obtain ⟨k, hk, _, hg, _, _⟩ := convertLoop_step range hmax 0 cur h1 h2
    have hpos : 1 ≤ 2 ^ k := Nat.one_le_two_pow
    have hle : 2 ^ k ≤ 2 ^ 31 := Nat.pow_le_pow_right (by omega) hk
    refine ⟨2 ^ k, hg, hpos, ?_⟩
    intro _ hadv
    unfold sub32 at hadv
    unfold add32
    omega

theorem convertRangeToCidrs_terminates_witness :
    (4294967295 : Nat) ≤ 4294967295 ∧
      ((∃ bs, convertRangeToCidrs ⟨4294967290, 4294967295⟩ = some bs ∧
        ∀ fuel, (⟨4294967290, 4294967295⟩ : UInt32Range).end + 1 -
            (⟨4294967290, 4294967295⟩ : UInt32Range).start ≤ fuel →
          convertLoop ⟨4294967290, 4294967295⟩ fuel
            (⟨4294967290, 4294967295⟩ : UInt32Range).start = some bs) ∧
      ∀ cur, (⟨4294967290, 4294967295⟩ : UInt32Range).start ≤ cur →
        cur ≤ (⟨4294967290, 4294967295⟩ : UInt32Range).end →
        ∃ size, growSize ⟨4294967290, 4294967295⟩ cur 32 1 = some size ∧ 1 ≤ size ∧
          (cur ≠ (⟨4294967290, 4294967295⟩ : UInt32Range).end →
            ¬ cur > sub32 4294967295 size →
            cur + size ≤ 4294967295 ∧ add32 cur size = cur + size ∧
              cur < add32 cur size)) :=
  ⟨by decide, convertRangeToCidrs_terminates ⟨4294967290, 4294967295⟩ (by decide)⟩

/-- C19: for every range with `1 <= start <= end` the blocks returned by
`convertRangeToCidrs` cover the range exactly: the span of every emitted block
lies inside `[start, end]`, and every address in `[start, end]` lies in exactly
one emitted block. -/
theorem convertRangeToCidrs_exact_of_pos (range : UInt32Range) (hpos : 1 ≤ range.start)
    (hle : range.start ≤ range.end) (hmax : range.end ≤ 4294967295) :
    ∃ bs, convertRangeToCidrs range = some bs ∧
      (∀ b ∈ bs, range.start ≤ (blockRange b).start ∧ (blockRange b).end ≤ range.end) ∧
      ∀ x, range.start ≤ x → x ≤ range.end → ∃! b, b ∈ bs ∧ InBlock b x := by
  obtain ⟨bs, hbs, hall, hpair, hcov⟩ :=
    convertLoop_blocks range hmax (range.end + 1 - range.start) range.start (le_refl _)
  have hcov' := hcov hpos (le_refl _)
  have hspan : ∀ b ∈ bs, ∃ k, ValidBlock b ∧ blockRange b = ⟨b.ip, b.ip + (2 ^ k - 1)⟩ ∧
      range.start ≤ b.ip ∧ b.ip + 2 ^ k - 1 ≤ range.end ∧ 1 ≤ 2 ^ k := by
    intro b hb
    obtain ⟨h1, h2, k, hk, hm, hal, hfit⟩ := hall b hb
    exact ⟨k, emitted_validBlock (by omega) hk hm, emitted_span (by omega) hk hm hal, h1,
      hfit hpos, Nat.one_le_two_pow⟩
  refine ⟨bs, hbs, ?_, ?_⟩
  · intro b hb
    obtain ⟨k, _, hs, h1, h2, h3⟩ := hspan b hb
    rw [hs]
    dsimp only
    omega
  · intro x hx1 hx2
    have hx : x < 4294967296 := by omega
    obtain ⟨b, hb, hbx⟩ := (hcov' x).mpr ⟨hx1, hx2⟩
    have hvb : ValidBlock b := by
      obtain ⟨k, hv, _⟩ := hspan b hb
      exact hv
    refine ⟨b, ⟨hb, (inBlock_iff_inRange hvb hx).mpr hbx⟩, ?_⟩
    rintro b' ⟨hb', hbx'⟩
    obtain ⟨k', hv', hs', _, _, _⟩ := hspan b' hb'
    obtain ⟨k, _, hs, _, _, _⟩ := hspan b hb
    have hbx'' := (inBlock_iff_inRange hv' hx).mp hbx'
    by_contra hne
    have hsym : Symmetric (fun c c' : IPRange =>
        (blockRange c).end < c'.ip ∨ (blockRange c').end < c.ip) := by
      intro c c' h
      exact h.symm
    have hpair' : bs.Pairwise (fun c c' : IPRange =>
        (blockRange c).end < c'.ip ∨ (blockRange c').end < c.ip) :=
      hpair.imp (fun h => Or.inl h)
    have hdis := hpair'.forall hsym hb' hb hne
    rw [hs, hs'] at hdis
    rw [hs] at hbx
    rw [hs'] at hbx''
    unfold InRange at hbx hbx''
    dsimp only at hdis hbx hbx''
    omega

theorem convertRangeToCidrs_exact_of_pos_witness :
    (1 : Nat) ≤ 10 ∧ (10 : Nat) ≤ 20 ∧ (20 : Nat) ≤ 4294967295 ∧
      ∃ bs, convertRangeToCidrs ⟨10, 20⟩ = some bs ∧
        (∀ b ∈ bs, (⟨10, 20⟩ : UInt32Range).start ≤ (blockRange b).start ∧
          (blockRange b).end ≤ (⟨10, 20⟩ : UInt32Range).end) ∧
        ∀ x, (⟨10, 20⟩ : UInt32Range).start ≤ x → x ≤ (⟨10, 20⟩ : UInt32Range).end →
          ∃! b, b ∈ bs ∧ InBlock b x :=
  ⟨by decide, by decide, by decide,
    convertRangeToCidrs_exact_of_pos ⟨10, 20⟩ (by decide) (by decide) (by decide)⟩

/-- C20: for every end value `e` with `0 <= e <= 0xFFFFFFFF`, the first block
returned by `convertRangeToCidrs` on the range `[0, e]` is
`{ip = 0, mask = 0x80000000}`, that is `0.0.0.0/1`, whatever `e` is. -/
theorem convertRangeToCidrs_zero_first_block (e : Nat) (he : e ≤ 4294967295) :
    ∃ rest, convertRangeToCidrs ⟨0, e⟩ = some (⟨0, 2147483648⟩ :: rest) := by
  have hmax : (⟨0, e⟩ : UInt32Range).end ≤ 4294967295 := he
  obtain ⟨k, hk, _, hg, _, hstep⟩ :=
    convertLoop_step ⟨0, e⟩ hmax e 0 (Nat.zero_le _) (Nat.zero_le _)
  have hg' := growSize_zero ⟨0, e⟩ 32 0 (by omega) (by omega)
  rw [pow_zero, hg] at hg'
  have hsize : 2 ^ k = 2 ^ 31 := Option.some.inj hg'
  have hmask : (2 : Nat) ^ 32 - 2 ^ k = 2147483648 := by rw [hsize]; norm_num
  rw [hmask, hsize] at hstep
  have hfuel : convertRangeToCidrs ⟨0, e⟩ = convertLoop ⟨0, e⟩ (e + 1) 0 := rfl
  rw [hfuel, hstep]
  split_ifs with h1 h2
  · exact ⟨[], rfl⟩
  · exact ⟨[], rfl⟩
  · obtain ⟨bs, hbs, _⟩ := convertLoop_blocks ⟨0, e⟩ hmax e (0 + 2 ^ 31) (by
      show e + 1 - (0 + 2 ^ 31) ≤ e
      omega)
    rw [hbs]
    exact ⟨bs, rfl⟩

theorem convertRangeToCidrs_zero_first_block_witness :
    (5 : Nat) ≤ 4294967295 ∧
      ∃ rest, convertRangeToCidrs ⟨0, 5⟩ = some (⟨0, 2147483648⟩ :: rest) :=
  ⟨by decide, convertRangeToCidrs_zero_first_block 5 (by decide)⟩

/-! ## processRanges -/

theorem convertToUInt32Ranges_valid {l : List IPRange} (hl : ∀ b ∈ l, ValidBlock b) :
    ∀ r ∈ convertToUInt32Ranges l, ValidRange r := by
  intro r hr
  rw [convertToUInt32Ranges_eq_map, List.mem_map] at hr
  obtain ⟨b, hb, rfl⟩ := hr
  exact blockRange_valid (hl b hb)

theorem covers_le_max {l : List UInt32Range} (hl : ∀ r ∈ l, ValidRange r) {x : Nat}
    (hx : Covers l x) : x ≤ 4294967295 := by
  obtain ⟨r, hr, _, h2⟩ := hx
  have := (hl r hr).2
  omega

theorem blocks_covers {l : List IPRange} (hl : ∀ b ∈ l, ValidBlock b) {x : Nat}
    (hx : x ≤ 4294967295) :
    Covers (convertToUInt32Ranges l) x ↔ ∃ b ∈ l, InBlock b x := by
  rw [convertToUInt32Ranges_eq_map]
  unfold Covers
  constructor
  · rintro ⟨r, hr, hrx⟩
    rw [List.mem_map] at hr
    obtain ⟨b, hb, rfl⟩ := hr
    exact ⟨b, hb, (inBlock_iff_inRange (hl b hb) (by omega)).mpr hrx⟩
  · rintro ⟨b, hb, hbx⟩
    exact ⟨blockRange b, List.mem_map_of_mem _ hb,
      (inBlock_iff_inRange (hl b hb) (by omega)).mp hbx⟩

theorem decomposeAll_some :
    ∀ (l : List UInt32Range), (∀ r ∈ l, ValidRange r) → ∃ bs, decomposeAll l = some bs := by
  intro l
  induction l with
  | nil => intro _; exact ⟨[], rfl⟩
  | cons r rest ih =>
    intro hl
    obtain ⟨bs, hbs⟩ := ih (fun q hq => hl q (List.mem_cons_of_mem _ hq))
    obtain ⟨cs, hcs', _⟩ := convertLoop_wellFormed r (hl r (List.mem_cons_self _ _)).2
      (r.end + 1 - r.start) r.start (le_refl _)
    have hcs : convertRangeToCidrs r = some cs := hcs'
    unfold decomposeAll
    rw [hcs, hbs]
    exact ⟨cs ++ bs, rfl⟩

/-- The ranges `processRanges` decomposes, for a non-empty include list. -/
theorem processRangesWith_of_ne_nil (sort : List UInt32Range → List UInt32Range)
    (I E : List IPRange) (hI : I ≠ []) :
    processRangesWith sort I E =
      decomposeAll (subtractRanges (normalizeRangesWith sort (convertToUInt32Ranges I))
        (normalizeRangesWith sort (convertToUInt32Ranges E))) := by
  unfold processRangesWith
  have : I.isEmpty = false := by
    cases I with
    | nil => exact absurd rfl hI
    | cons _ _ => rfl
  simp only [this]
  rfl

/-- C12: for every normalized include list `A`, every list `B` of exclude
ranges with `start <= end` and every permutation `B'` of `B`,
`subtractRanges(A, B)` and `subtractRanges(A, B')` are the same list. -/
theorem subtractRanges_perm (A B B' : List UInt32Range) (hA : NormalizedSet A)
    (hB : ∀ r ∈ B, r.start ≤ r.end ∧ r.end ≤ 4294967295) (hperm : B'.Perm B) :
    subtractRanges A B = subtractRanges A B' := by
  have hA' := (normalizedSet_iff_normFrom A).mp hA
  have hB' : ∀ r ∈ B', ValidRange r := fun r hr => hB r (hperm.mem_iff.mp hr)
  apply normFrom_unique _ _ 0 0 (subtractRanges_normFrom B A hB hA')
    (subtractRanges_normFrom B' A hB' hA')
  intro x
  rw [subtractRanges_covers x B A hB hA', subtractRanges_covers x B' A hB' hA',
    covers_perm hperm x]

theorem subtractRanges_perm_witness :
    NormalizedSet [⟨0, 10⟩, ⟨20, 30⟩] ∧
      (∀ r ∈ [(⟨3, 8⟩ : UInt32Range), ⟨5, 22⟩, ⟨1, 1⟩], r.start ≤ r.end ∧ r.end ≤ 4294967295) ∧
      [(⟨1, 1⟩ : UInt32Range), ⟨5, 22⟩, ⟨3, 8⟩].Perm [⟨3, 8⟩, ⟨5, 22⟩, ⟨1, 1⟩] ∧
      subtractRanges [⟨0, 10⟩, ⟨20, 30⟩] [⟨3, 8⟩, ⟨5, 22⟩, ⟨1, 1⟩] =
        subtractRanges [⟨0, 10⟩, ⟨20, 30⟩] [⟨1, 1⟩, ⟨5, 22⟩, ⟨3, 8⟩] :=
  have hA : NormalizedSet [⟨0, 10⟩, ⟨20, 30⟩] := by
    rw [normalizedSet_iff_normFrom]; simp [NormFrom, ValidRange]
  have hp : [(⟨1, 1⟩ : UInt32Range), ⟨5, 22⟩, ⟨3, 8⟩].Perm [⟨3, 8⟩, ⟨5, 22⟩, ⟨1, 1⟩] := by
    decide
  ⟨hA, by decide, hp,
    subtractRanges_perm [⟨0, 10⟩, ⟨20, 30⟩] [⟨3, 8⟩, ⟨5, 22⟩, ⟨1, 1⟩] [⟨1, 1⟩, ⟨5, 22⟩, ⟨3, 8⟩]
      hA (by decide) hp⟩

theorem normalized_includes_eq (sort : List UInt32Range → List UInt32Range)
    (hsort : ∀ l, IsSortOf (sort l) l) (I₁ I₂ : List IPRange)
    (hv₁ : ∀ b ∈ I₁, ValidBlock b) (hv₂ : ∀ b ∈ I₂, ValidBlock b)
    (hcov : ∀ x, x ≤ 4294967295 → ((∃ b ∈ I₁, InBlock b x) ↔ ∃ b ∈ I₂, InBlock b x)) :
    normalizeRangesWith sort (convertToUInt32Ranges I₁) =
      normalizeRangesWith sort (convertToUInt32Ranges I₂) := by
  have hr₁ := convertToUInt32Ranges_valid hv₁
  have hr₂ := convertToUInt32Ranges_valid hv₂
  apply normFrom_unique _ _ 0 0 (normalizeRangesWith_normFrom sort hsort _ hr₁)
    (normalizeRangesWith_normFrom sort hsort _ hr₂)
  intro x
  rw [normalizeRangesWith_covers sort hsort _ hr₁, normalizeRangesWith_covers sort hsort _ hr₂]
  by_cases hx : x ≤ 4294967295
  · rw [blocks_covers hv₁ hx, blocks_covers hv₂ hx]
    exact hcov x hx
  · constructor
    · intro h; exact absurd (covers_le_max hr₁ h) hx
    · intro h; exact absurd (covers_le_max hr₂ h) hx

theorem final_ranges_normFrom (sort : List UInt32Range → List UInt32Range)
    (hsort : ∀ l, IsSortOf (sort l) l) (I E : List IPRange)
    (hvI : ∀ b ∈ I, ValidBlock b) (hvE : ∀ b ∈ E, ValidBlock b) :
    NormFrom 0 (subtractRanges (normalizeRangesWith sort (convertToUInt32Ranges I))
      (normalizeRangesWith sort (convertToUInt32Ranges E))) :=
  subtractRanges_normFrom _ _
    (normFrom_valid (normalizeRangesWith_normFrom sort hsort _ (convertToUInt32Ranges_valid hvE)))
    (normalizeRangesWith_normFrom sort hsort _ (convertToUInt32Ranges_valid hvI))

/-- The range of any block with a 32-bit address and a 32-bit mask, prefix mask
or not, is a valid range: `ip & mask <= (ip & mask) | ~mask <= 0xFFFFFFFF`. -/
theorem blockRange_valid_of_bounds {b : IPRange} (hm : b.mask ≤ 4294967295) :
    ValidRange (blockRange b) := by
  unfold ValidRange blockRange
  dsimp only
  constructor
  · apply Nat.le_of_testBit
    intro i hi
    rw [Nat.testBit_or, hi, Bool.true_or]
  · have h1 : b.ip &&& b.mask < 2 ^ 32 :=
      Nat.and_lt_two_pow _ (by norm_num; omega)
    have h2 : not32 b.mask < 2 ^ 32 := by
      unfold not32
      exact Nat.xor_lt_two_pow (by norm_num; omega) (by norm_num)
    have h3 := Nat.or_lt_two_pow h1 h2
    norm_num at h3
    omega

theorem convertToUInt32Ranges_valid_of_bounds {l : List IPRange}
    (hl : ∀ b ∈ l, b.ip ≤ 4294967295 ∧ b.mask ≤ 4294967295) :
    ∀ r ∈ convertToUInt32Ranges l, ValidRange r := by
  intro r hr
  rw [convertToUInt32Ranges_eq_map, List.mem_map] at hr
  obtain ⟨b, hb, rfl⟩ := hr
  exact blockRange_valid_of_bounds (hl b hb).2

/-- C13: for all non-empty include lists `I₁` and `I₂` with prefix masks that
cover the same addresses, and every exclude list `E` of 32-bit addresses and
32-bit masks (prefix masks or not), `processRanges(I₁, E)` and
`processRanges(I₂, E)` return the identical block list. -/
theorem processRanges_same_cover (sort : List UInt32Range → List UInt32Range)
    (hsort : ∀ l, IsSortOf (sort l) l) (I₁ I₂ E : List IPRange)
    (h₁ : I₁ ≠ []) (h₂ : I₂ ≠ [])
    (hv₁ : ∀ b ∈ I₁, ValidBlock b) (hv₂ : ∀ b ∈ I₂, ValidBlock b)
    (hE : ∀ b ∈ E, b.ip ≤ 4294967295 ∧ b.mask ≤ 4294967295)
    (hcov : ∀ x, x ≤ 4294967295 → ((∃ b ∈ I₁, InBlock b x) ↔ ∃ b ∈ I₂, InBlock b x)) :
    ∃ bs, processRangesWith sort I₁ E = some bs ∧ processRangesWith sort I₂ E = some bs := by
  rw [processRangesWith_of_ne_nil sort I₁ E h₁, processRangesWith_of_ne_nil sort I₂ E h₂,
    normalized_includes_eq sort hsort I₁ I₂ hv₁ hv₂ hcov]
  have hnE := normalizeRangesWith_normFrom sort hsort _ (convertToUInt32Ranges_valid_of_bounds hE)
  have hnI := normalizeRangesWith_normFrom sort hsort _ (convertToUInt32Ranges_valid hv₂)
  obtain ⟨bs, hbs⟩ := decomposeAll_some _
    (normFrom_valid (subtractRanges_normFrom _ _ (normFrom_valid hnE) hnI))
  exact ⟨bs, hbs, hbs⟩

theorem processRanges_same_cover_witness :
    [(⟨0, 2147483648⟩ : IPRange)] ≠ [] ∧
      [(⟨0, 3221225472⟩ : IPRange), ⟨1073741824, 3221225472⟩] ≠ [] ∧
      (∀ b ∈ [(⟨0, 2147483648⟩ : IPRange)], ValidBlock b) ∧
      (∀ b ∈ [(⟨0, 3221225472⟩ : IPRange), ⟨1073741824, 3221225472⟩], ValidBlock b) ∧
      (∀ b ∈ [(⟨167772160, 4278255360⟩ : IPRange)],
        b.ip ≤ 4294967295 ∧ b.mask ≤ 4294967295) ∧
      (∀ x, x ≤ 4294967295 → ((∃ b ∈ [(⟨0, 2147483648⟩ : IPRange)], InBlock b x) ↔
        ∃ b ∈ [(⟨0, 3221225472⟩ : IPRange), ⟨1073741824, 3221225472⟩], InBlock b x)) ∧
      ∃ bs, processRangesWith sortByStart [⟨0, 2147483648⟩] [⟨167772160, 4278255360⟩] =
          some bs ∧
        processRangesWith sortByStart [⟨0, 3221225472⟩, ⟨1073741824, 3221225472⟩]
          [⟨167772160, 4278255360⟩] = some bs :=
  have hv₁ : ∀ b ∈ [(⟨0, 2147483648⟩ : IPRange)], ValidBlock b := by decide
  have hv₂ : ∀ b ∈ [(⟨0, 3221225472⟩ : IPRange), ⟨1073741824, 3221225472⟩], ValidBlock b := by
    decide
  have hcov : ∀ x, x ≤ 4294967295 → ((∃ b ∈ [(⟨0, 2147483648⟩ : IPRange)], InBlock b x) ↔
      ∃ b ∈ [(⟨0, 3221225472⟩ : IPRange), ⟨1073741824, 3221225472⟩], InBlock b x) := by
    intro x hx
    rw [← blocks_covers hv₁ hx, ← blocks_covers hv₂ hx]
    have e₁ : convertToUInt32Ranges [⟨0, 2147483648⟩] = [⟨0, 2147483647⟩] := by decide
    have e₂ : convertToUInt32Ranges [⟨0, 3221225472⟩, ⟨1073741824, 3221225472⟩] =
        [⟨0, 1073741823⟩, ⟨1073741824, 2147483647⟩] := by decide
    rw [e₁, e₂]
    simp only [covers_cons, covers_nil, InRange, or_false]
    omega
  ⟨by decide, by decide, hv₁, hv₂, by decide, hcov,
    processRanges_same_cover sortByStart sortByStart_isSortOf [⟨0, 2147483648⟩]
      [⟨0, 3221225472⟩, ⟨1073741824, 3221225472⟩] [⟨167772160, 4278255360⟩] (by decide)
      (by decide) hv₁ hv₂ (by decide) hcov⟩

/-- C14: for every non-empty include list `I` with prefix masks, and every
exclude list `E` with prefix masks that covers every address `I` covers,
`processRanges(I, E)` returns the empty list; in particular `processRanges(I, I)`
is empty. -/
theorem processRanges_covered_empty (sort : List UInt32Range → List UInt32Range)
    (hsort : ∀ l, IsSortOf (sort l) l) (I : List IPRange) (hI : I ≠ [])
    (hvI : ∀ b ∈ I, ValidBlock b) :
    (∀ E : List IPRange, (∀ b ∈ E, ValidBlock b) →
      (∀ x, x ≤ 4294967295 → (∃ b ∈ I, InBlock b x) → ∃ b ∈ E, InBlock b x) →
      processRangesWith sort I E = some []) ∧
    processRangesWith sort I I = some [] := by
  have main : ∀ E : List IPRange, (∀ b ∈ E, ValidBlock b) →
      (∀ x, x ≤ 4294967295 → (∃ b ∈ I, InBlock b x) → ∃ b ∈ E, InBlock b x) →
      processRangesWith sort I E = some [] := by
    intro E hvE hcov
    have hrI := convertToUInt32Ranges_valid hvI
    have hrE := convertToUInt32Ranges_valid hvE
    have hnI := normalizeRangesWith_normFrom sort hsort _ hrI
    have hnE := normalizeRangesWith_normFrom sort hsort _ hrE
    have hempty : subtractRanges (normalizeRangesWith sort (convertToUInt32Ranges I))
        (normalizeRangesWith sort (convertToUInt32Ranges E)) = [] := by
      apply normFrom_unique _ [] 0 0 (final_ranges_normFrom sort hsort I E hvI hvE) trivial
      intro x
      rw [subtractRanges_covers x _ _ (normFrom_valid hnE) hnI,
        normalizeRangesWith_covers sort hsort _ hrI,
        normalizeRangesWith_covers sort hsort _ hrE, covers_nil]
      constructor
      · rintro ⟨h1, h2⟩
        have hx := covers_le_max hrI h1
        exact h2 ((blocks_covers hvE hx).mpr (hcov x hx ((blocks_covers hvI hx).mp h1)))
      · intro h; exact absurd h id
    rw [processRangesWith_of_ne_nil sort I E hI, hempty]
    rfl
  exact ⟨main, main I hvI (fun _ _ h => h)⟩

theorem processRanges_covered_empty_witness :
    [(⟨3232235776, 4294967040⟩ : IPRange)] ≠ [] ∧
      (∀ b ∈ [(⟨3232235776, 4294967040⟩ : IPRange)], ValidBlock b) ∧
      ((∀ E : List IPRange, (∀ b ∈ E, ValidBlock b) →
        (∀ x, x ≤ 4294967295 → (∃ b ∈ [(⟨3232235776, 4294967040⟩ : IPRange)], InBlock b x) →
          ∃ b ∈ E, InBlock b x) →
        processRangesWith sortByStart [⟨3232235776, 4294967040⟩] E = some []) ∧
      processRangesWith sortByStart [⟨3232235776, 4294967040⟩] [⟨3232235776, 4294967040⟩] =
        some []) :=
  ⟨by decide, by decide,
    processRanges_covered_empty sortByStart sortByStart_isSortOf [⟨3232235776, 4294967040⟩]
      (by decide) (by decide)⟩

/-- C15: for the include blocks `0.0.0.0/8` and `10.0.0.0/8` and no exclusion,
`processRanges` returns `0.0.0.0/1` and `10.0.0.0/8`; turning these blocks back
into ranges, normalising and decomposing again gives the single block
`0.0.0.0/1`, a different list. -/
theorem processRanges_round_trip_differs :
    processRanges [⟨0, 4278190080⟩, ⟨167772160, 4278190080⟩] [] =
        some [⟨0, 2147483648⟩, ⟨167772160, 4278190080⟩] ∧
      decomposeAll (normalizeRanges
          (convertToUInt32Ranges [⟨0, 2147483648⟩, ⟨167772160, 4278190080⟩])) =
        some [⟨0, 2147483648⟩] := by
  refine ⟨by decide, by decide⟩

/-- C16: `processRanges([10.0.0.0/8], [10.1.0.0/16])` returns exactly 8 blocks,
ascending and pairwise disjoint, whose union is the addresses
`10.0.0.0 .. 10.255.255.255` without `10.1.0.0 .. 10.1.255.255`. -/
theorem processRanges_ten_minus_ten_one :
    ∃ bs, processRanges [⟨167772160, 4278190080⟩] [⟨167837696, 4294901760⟩] = some bs ∧
      bs.length = 8 ∧
      bs.Pairwise (fun b b' => b.ip < b'.ip ∧ (blockRange b).end < (blockRange b').start) ∧
      ∀ x, x ≤ 4294967295 → ((∃ b ∈ bs, InBlock b x) ↔
        (167772160 ≤ x ∧ x ≤ 184549375) ∧ ¬ (167837696 ≤ x ∧ x ≤ 167903231)) := by
  refine ⟨[⟨167772160, 4294901760⟩, ⟨167903232, 4294836224⟩, ⟨168034304, 4294705152⟩,
    ⟨168296448, 4294443008⟩, ⟨168820736, 4293918720⟩, ⟨169869312, 4292870144⟩,
    ⟨171966464, 4290772992⟩, ⟨176160768, 4286578688⟩], by decide, rfl, by decide, ?_⟩
  intro x hx
  have hv : ∀ b ∈ [(⟨167772160, 4294901760⟩ : IPRange), ⟨167903232, 4294836224⟩,
      ⟨168034304, 4294705152⟩, ⟨168296448, 4294443008⟩, ⟨168820736, 4293918720⟩,
      ⟨169869312, 4292870144⟩, ⟨171966464, 4290772992⟩, ⟨176160768, 4286578688⟩],
      ValidBlock b := by decide
  rw [← blocks_covers hv hx]
  have e : convertToUInt32Ranges [⟨167772160, 4294901760⟩, ⟨167903232, 4294836224⟩,
      ⟨168034304, 4294705152⟩, ⟨168296448, 4294443008⟩, ⟨168820736, 4293918720⟩,
      ⟨169869312, 4292870144⟩, ⟨171966464, 4290772992⟩, ⟨176160768, 4286578688⟩] =
      [⟨167772160, 167837695⟩, ⟨167903232, 168034303⟩, ⟨168034304, 168296447⟩,
        ⟨168296448, 168820735⟩, ⟨168820736, 169869311⟩, ⟨169869312, 171966463⟩,
        ⟨171966464, 176160767⟩, ⟨176160768, 184549375⟩] := by decide
  rw [e]
  simp only [covers_cons, covers_nil, InRange, or_false]
  omega

/-- C17: on the range `[0, 0]` with `current_ip = 0` and `size = 1` the
alignment test for `next_size = 2` passes, `next_size - 1 = 1` exceeds
`range.end = 0`, the difference `range.end - (next_size - 1)` wraps to
`0xFFFFFFFF`, and the doubled size is accepted although
`current_ip + next_size - 1 > range.end`; the inner loop ends with size `2^31`. -/
theorem growSize_end_test_wraps :
    (0 &&& not32 (sub32 (shl32 1 1) 1)) = 0 ∧
      sub32 (shl32 1 1) 1 > (⟨0, 0⟩ : UInt32Range).end ∧
      sub32 (⟨0, 0⟩ : UInt32Range).end (sub32 (shl32 1 1) 1) = 4294967295 ∧
      ¬ ((0 &&& not32 (sub32 (shl32 1 1) 1)) ≠ 0 ∨
        0 > sub32 (⟨0, 0⟩ : UInt32Range).end (sub32 (shl32 1 1) 1)) ∧
      0 + shl32 1 1 - 1 > (⟨0, 0⟩ : UInt32Range).end ∧
      growSize ⟨0, 0⟩ 0 32 1 = some 2147483648 := by
  refine ⟨by decide, by decide, by decide, by decide, by decide, by decide⟩

end ip_calculator
